import Mathlib

/-!
# Verification of the ADCS2018 compressed k-mer vocabulary clustering core

This file gives a shallow embedding, in Lean 4, of the core data structures and
algorithms of the ADCS2018 protein k-mer clustering programs:

* the packed k-mer distance cache (`KmerDistanceCache.hpp`: `PrecomputeDistances`,
  `KmerDistanceCache3::GetDistance`, `KmerDistanceCache3::IsWithin`);
* the k-mer index (`KmerIndex.hpp`, `Kmer.hpp`);
* the incremental parallel clustering engine (`KmerCluster.hpp`:
  `DoIncrementalClusteringParallel` in its global and banded overloads, and
  `DoExhaustiveIncrementalClustering` in both overloads), sequentialised in
  program order (one legal OpenMP schedule);
* the exact medoid search (`KMedoids.hpp`: `KMedoids::GetMedoid`).

C++ machine integers are modelled as `Nat`/`Int` with explicit wrapping where it
matters: the `Distance` type is `uint16_t`, so distance accumulation wraps
modulo 2^16; the distance-cache cell type is `int8_t`, so table construction
wraps values into [-128,127].  The `double threshold` of the clustering engine
is modelled as a rational number (every finite double is a rational, and the
only double operations performed on it are order comparisons with integers).
The run's random stream (`UniformRealRandom`) is modelled as an arbitrary
function from draw index to natural number, reduced modulo the live range size,
which realises exactly the values `(size_t)(rand() * range)` can take.

Theorems named `c1_...` through `c10_...` settle the corresponding claims.
-/

namespace ADCS2018

/-! ## Machine arithmetic helpers -/

/-- Wrap an integer into `uint16_t` range, as C++ does when a sum is stored
back into a `Distance` (= `uint16_t`) variable. -/
def u16 (n : ℤ) : ℕ := (n % 65536).toNat

/-- One `dist += cell` step of the C++ code: the `int8_t` cell is promoted to
`int`, added, and the result stored back into the `uint16_t` accumulator. -/
def u16add (d : ℕ) (c : ℤ) : ℕ := u16 ((d : ℤ) + c)

/-- Conversion of a `Distance` (`uint16_t`) value to the cache cell type
`int8_t`, as performed by `(CacheType) t` in `PrecomputeDistances`. -/
def int8OfNat (n : ℕ) : ℤ :=
  if n % 256 < 128 then ((n % 256 : ℕ) : ℤ) else ((n % 256 : ℕ) : ℤ) - 256

/-! ## Packed words (`Alphabet::Encode` / `Alphabet::Decode`)

A tuple of symbols (each a number `< A`) is packed into a single word as a
mixed-radix number, most significant symbol first (`Alphabet::Encode`, the
Horner loop `code = code * size + j`).  `Alphabet::Decode` recovers the digits
from the least significant end and prepends them. -/

/-- `Alphabet::Encode` restricted to a single word: Horner evaluation of the
symbol tuple in radix `A`. -/
def encodeTuple (A : ℕ) (s : List ℕ) : ℕ := s.foldl (fun acc j => acc * A + j) 0

/-- `Alphabet::Decode` restricted to a single word holding `c` symbols:
extract `c` radix-`A` digits, least significant last. -/
def decodeTuple (A : ℕ) : ℕ → ℕ → List ℕ
  | 0, _ => []
  | c + 1, n => decodeTuple A c (n / A) ++ [n % A]

/-- Split a symbol string into chunks of 3 symbols; the final chunk holds the
`k mod 3` remainder symbols when `k` is not a multiple of 3. -/
def chunk3 : List ℕ → List (List ℕ)
  | [] => []
  | [a] => [[a]]
  | [a, b] => [[a, b]]
  | a :: b :: c :: rest => [a, b, c] :: chunk3 rest

/-- Pack a symbol string at 3 characters per word: one packed word per chunk. -/
def pack3 (A : ℕ) (s : List ℕ) : List ℕ := (chunk3 s).map (encodeTuple A)

/-! ## The distance cache (`KmerDistanceCache::PrecomputeDistances`)

`PrecomputeDistances` enumerates all `A^c` words, decodes each back to a
character tuple, evaluates the raw tuple distance for every pair `j ≤ i`, and
stores the result—cast to `int8_t`—at both `[i][j]` and `[j][i]`.  Hence the
cell at `(a, b)` holds the raw distance of the decoded tuples of `max a b` and
`min a b`, wrapped into `int8_t`. -/

/-- The table built by `PrecomputeDistances` for word length `c`, as a function
of the two packed codes.  `raw` is the raw tuple distance function
(`RawKmerDistanceFunction::operator()`), returning a `Distance` value. -/
def cacheTable (A c : ℕ) (raw : List ℕ → List ℕ → ℕ → ℕ) (a b : ℕ) : ℤ :=
  int8OfNat (raw (decodeTuple A c (max a b)) (decodeTuple A c (min a b)) c)

/-- `KmerDistanceCache3::GetDistance`: `k / 3` lookups in the 3-symbol table
followed by one lookup in the 1- or 2-symbol table for the remainder.  The
accumulator is a `Distance` (`uint16_t`), so every addition wraps. -/
def getDistance3 (t1 t2 t3 : ℕ → ℕ → ℤ) (sCode tCode : List ℕ) (k : ℕ) : ℕ :=
  let numThrees := k / 3
  let rem := k % 3
  let dist := (List.range numThrees).foldl
    (fun d i => u16add d (t3 (sCode.getD i 0) (tCode.getD i 0))) 0
  if rem = 0 then dist
  else if rem = 1 then u16add dist (t1 (sCode.getD numThrees 0) (tCode.getD numThrees 0))
  else u16add dist (t2 (sCode.getD numThrees 0) (tCode.getD numThrees 0))

/-- Inner loop of `KmerDistanceCache3::IsWithin` over the full 3-symbol words:
accumulate, and return `none` (early exit, C++ `return false`) as soon as the
running sum exceeds the threshold. -/
def isWithinLoop (t3 : ℕ → ℕ → ℤ) (sCode tCode : List ℕ) (threshold : ℕ) :
    ℕ → ℕ → ℕ → Option ℕ
  | 0, _, d => some d
  | n + 1, i, d =>
    let d' := u16add d (t3 (sCode.getD i 0) (tCode.getD i 0))
    if threshold < d' then none
    else isWithinLoop t3 sCode tCode threshold n (i + 1) d'

/-- `KmerDistanceCache3::IsWithin`.  Returns the C++ function's boolean result
together with the final value of the by-reference `result` variable, whose
prior value `result0` is returned untouched on the `false` path. -/
def isWithin3 (t1 t2 t3 : ℕ → ℕ → ℤ) (sCode tCode : List ℕ) (k : ℕ)
    (threshold : ℕ) (result0 : ℕ) : Bool × ℕ :=
  let numThrees := k / 3
  let rem := k % 3
  match isWithinLoop t3 sCode tCode threshold numThrees 0 0 with
  | none => (false, result0)
  | some d =>
    if rem = 0 then (true, d)
    else
      let d' := if rem = 1
        then u16add d (t1 (sCode.getD numThrees 0) (tCode.getD numThrees 0))
        else u16add d (t2 (sCode.getD numThrees 0) (tCode.getD numThrees 0))
      if threshold < d' then (false, result0) else (true, d')

/-- The exact (unwrapped) total of the table cells that `GetDistance` and
`IsWithin` read for codes `sCode, tCode` and length `k`, each cell taken as a
natural number (meaningful under the claims' cell non-negativity
precondition). -/
def cellSumN (t1 t2 t3 : ℕ → ℕ → ℤ) (sCode tCode : List ℕ) (k : ℕ) : ℕ :=
  ((List.range (k / 3)).map
    (fun i => (t3 (sCode.getD i 0) (tCode.getD i 0)).toNat)).sum +
  (if k % 3 = 0 then 0
   else if k % 3 = 1 then (t1 (sCode.getD (k / 3) 0) (tCode.getD (k / 3) 0)).toNat
   else (t2 (sCode.getD (k / 3) 0) (tCode.getD (k / 3) 0)).toNat)

/-- The cell total read by the `IsWithin` main loop from word `i` on, over `n`
words of the 3-symbol table. -/
def cell3Sum (t3 : ℕ → ℕ → ℤ) (sCode tCode : List ℕ) (i n : ℕ) : ℕ :=
  ((List.range' i n).map (fun j => (t3 (sCode.getD j 0) (tCode.getD j 0)).toNat)).sum

/-! ## The clustering engine (`KmerCluster.hpp`)

A `Kmer` record carries its packed encoding and the mutable
`distanceFromPrototype` field.  Records are heap objects owned by the index;
`id` stands for the pointer identity of a record.  `KmerCluster::AddParallel`
copies the record *value* into the member vector, so members snapshot the
record at insertion time.

Parallel loops are sequentialised in program order (ascending loop index, and
ascending thread id for the banded variant); this is a legal schedule of the
OpenMP loops and the one with deterministic member-list order. -/

/-- A `Kmer` record: pointer identity, cached packed encoding (abstracted to a
single number consumed by the distance function), and the mutable
`distanceFromPrototype` field. -/
structure KRec where
  id : ℕ
  enc : ℕ
  dist : ℕ
deriving DecidableEq, Repr

instance : Inhabited KRec := ⟨⟨0, 0, 0⟩⟩

/-- One `KmerCluster`: the prototype's packed encoding and the member list. -/
structure GCluster where
  protoEnc : ℕ
  members : List KRec
deriving DecidableEq, Repr

/-- Run parameters shared by both scheduling variants: the distance function
over packed encodings (`DistanceFunction`, word length baked in), the `double`
threshold, the caller-supplied `createPrototype` callback (abstracted to the
packed encoding of the prototype it builds from a seed record), the random
stream, and `clusterIncrement`. -/
structure RunCfg where
  d : ℕ → ℕ → ℕ
  T : ℚ
  createProto : KRec → ℕ
  rands : ℕ → ℕ
  clusterIncrement : ℕ

/-- State mutated by the global-variant engine: the working pointer array, the
shared `firstUnallocIndex` high-water mark, and the cluster list. -/
structure GState where
  kmers : List KRec
  firstUnalloc : ℕ
  clusters : List GCluster
deriving DecidableEq, Repr

/-- State of the banded variant: `firstUnallocIndex` is a per-thread vector. -/
structure BState where
  kmers : List KRec
  firstUnalloc : List ℕ
  clusters : List GCluster
deriving DecidableEq, Repr

/-- `std::swap(kmers[i], kmers[j])`. -/
def listSwap (l : List KRec) (i j : ℕ) : List KRec :=
  (l.set i (l.getD j default)).set j (l.getD i default)

/-- Append a member to cluster `j` (`clusters[j]->AddParallel(*kmer)`). -/
def addMember (clusters : List GCluster) (j : ℕ) (m : KRec) : List GCluster :=
  clusters.set j { (clusters.getD j ⟨0, []⟩) with
    members := (clusters.getD j ⟨0, []⟩).members ++ [m] }

/-- The attractor search of the scan loop, recursing on the number of
clusters left to scan (`clusters.size() - j` at entry): the first cluster
whose prototype is within the threshold wins, and the loop breaks, recording
the winning index and the winning distance. -/
def findAttractorAux (d : ℕ → ℕ → ℕ) (T : ℚ) (clusters : List GCluster)
    (enc : ℕ) : ℕ → ℕ → Option (ℕ × ℕ)
  | 0, _ => none
  | n + 1, j =>
    let dj := d enc ((clusters.getD j ⟨0, []⟩).protoEnc)
    if (dj : ℚ) ≤ T then some (j, dj) else findAttractorAux d T clusters enc n (j + 1)

/-- The attractor search of the scan loop: linear scan of cluster prototypes
`for (j = firstClusterIndex; j < clusters.size(); j++)`. -/
def findAttractor (d : ℕ → ℕ → ℕ) (T : ℚ) (clusters : List GCluster)
    (enc : ℕ) (j : ℕ) : Option (ℕ × ℕ) :=
  findAttractorAux d T clusters enc (clusters.length - j) j

/-- Seed phase of the global `DoIncrementalClusteringParallel`: take up to
`requestedClusterCount` records from the front of the unassigned range and
push one new singleton cluster per record. -/
def seedPhaseG (cfg : RunCfg) (requested : ℕ) (st : GState) : GState :=
  if requested = 0 then st
  else
    let available := st.kmers.length - st.firstUnalloc
    let wanted := min requested available
    let newClusters := (List.range wanted).map
      (fun i => { protoEnc := cfg.createProto (st.kmers.getD (st.firstUnalloc + i) default),
                  members := [] })
    { st with clusters := st.clusters ++ newClusters }

/-- Body of the global scan loop at index `i`: first-fit search, then on a hit
set `distanceFromPrototype` through the pointer, append the updated record to
the winning cluster, swap it to the front of the unassigned range when
`i > firstUnallocIndex`, and increment `firstUnallocIndex` (the increment is
unconditional in the global variant). -/
def scanStepG (cfg : RunCfg) (fci : ℕ) (st : GState) (i : ℕ) : GState :=
  let kmer := st.kmers.getD i default
  match findAttractor cfg.d cfg.T st.clusters kmer.enc fci with
  | none => st
  | some (j, dj) =>
    let kmer' := { kmer with dist := dj }
    let kmers1 := st.kmers.set i kmer'
    { kmers := if st.firstUnalloc < i then listSwap kmers1 st.firstUnalloc i else kmers1
      firstUnalloc := st.firstUnalloc + 1
      clusters := addMember st.clusters j kmer' }

/-- The global scan phase: one pass of the `omp parallel for` loop over the
unassigned range, in ascending index order. -/
def scanPhaseG (cfg : RunCfg) (fci : ℕ) (st : GState) : GState :=
  (List.range' st.firstUnalloc (st.kmers.length - st.firstUnalloc)).foldl
    (scanStepG cfg fci) st

/-- `KmerCluster::DoIncrementalClusteringParallel` (global overload): entry
precondition check, seed phase, scan phase. -/
def doIncrementalClusteringParallel (cfg : RunCfg) (requested fci : ℕ)
    (st : GState) : Except String GState :=
  if st.clusters = [] ∧ requested = 0 then
    .error "clusters.size() == 0 && requestedClusterCount == 0"
  else
    .ok (scanPhaseG cfg fci (seedPhaseG cfg requested st))

/-! ### The banded variant -/

/-- Seed phase of the banded overload: each thread's quota is
`(t+1)*R/nT - t*R/nT`, capped by its band's unassigned count, and taken from
the front of its band's unassigned range; executed serially. -/
def seedPhaseB (cfg : RunCfg) (numThreads requested : ℕ) (st : BState) : BState :=
  if requested = 0 then st
  else
    (List.range numThreads).foldl
      (fun st t =>
        let N := st.kmers.length
        let endIdx := (t + 1) * N / numThreads
        let f := st.firstUnalloc.getD t 0
        let available := endIdx - f
        let desired := (t + 1) * requested / numThreads - t * requested / numThreads
        let wanted := min desired available
        let newClusters := (List.range wanted).map
          (fun i => { protoEnc := cfg.createProto (st.kmers.getD (f + i) default),
                      members := [] })
        { st with clusters := st.clusters ++ newClusters })
      st

/-- Body of the banded scan loop for thread `t` at index `i`.  Unlike the
global variant, both the swap and the `firstUnallocIndex[t]` increment sit
inside `if (i > firstUnallocIndex[threadId])`. -/
def scanStepB (cfg : RunCfg) (fci t : ℕ) (st : BState) (i : ℕ) : BState :=
  let kmer := st.kmers.getD i default
  match findAttractor cfg.d cfg.T st.clusters kmer.enc fci with
  | none => st
  | some (j, dj) =>
    let kmer' := { kmer with dist := dj }
    let kmers1 := st.kmers.set i kmer'
    let clusters' := addMember st.clusters j kmer'
    let f := st.firstUnalloc.getD t 0
    if f < i then
      { kmers := listSwap kmers1 f i
        firstUnalloc := st.firstUnalloc.set t (f + 1)
        clusters := clusters' }
    else
      { kmers := kmers1, firstUnalloc := st.firstUnalloc, clusters := clusters' }

/-- The banded scan phase: every thread sweeps its own range
`[firstUnallocIndex[t], (t+1)*N/numThreads)`; threads sequentialised in id
order (their bands are disjoint). -/
def scanPhaseB (cfg : RunCfg) (numThreads fci : ℕ) (st : BState) : BState :=
  (List.range numThreads).foldl
    (fun st t =>
      let N := st.kmers.length
      let endIdx := (t + 1) * N / numThreads
      let f := st.firstUnalloc.getD t 0
      (List.range' f (endIdx - f)).foldl (scanStepB cfg fci t) st)
    st

/-- `KmerCluster::DoIncrementalClusteringParallel` (banded overload). -/
def doIncrementalClusteringParallelBanded (cfg : RunCfg)
    (numThreads requested fci : ℕ) (st : BState) : Except String BState :=
  if st.clusters = [] ∧ requested = 0 then
    .error "clusters.size() == 0 && requestedClusterCount == 0"
  else
    .ok (scanPhaseB cfg numThreads fci (seedPhaseB cfg numThreads requested st))

/-- `KmerCluster::GetUnallocated` (despite the name it returns the number of
*allocated* k-mers): sum over threads of `firstUnallocIndex[t] - beginIdx t`. -/
def getUnallocated (numThreads N : ℕ) (firstUnalloc : List ℕ) : ℕ :=
  (List.range numThreads).foldl
    (fun acc t => acc + (firstUnalloc.getD t 0 - t * N / numThreads)) 0

/-! ### Setup filter and shuffle of `DoExhaustiveIncrementalClustering` -/

/-- Setup filter of the global `DoExhaustiveIncrementalClustering`, recursing
on the remaining iteration count (the fuel `N - i` bounds the iterations, and
the fuel-exhausted case coincides with the loop's exit result): k-mers whose
self-distance exceeds the threshold are swapped in front of
`firstUnallocIndex`.  The loop body ends with a second `i++`, so the index
advances by 2 per iteration, and the swap/increment pair is guarded by
`i > firstUnallocIndex`. -/
def setupLoopGAux (cfg : RunCfg) (N : ℕ) : ℕ → ℕ → ℕ → List KRec → List KRec × ℕ
  | 0, _, f, kmers => (kmers, f)
  | fuel + 1, i, f, kmers =>
    if i < N then
      let kmer := kmers.getD i default
      if cfg.T < (cfg.d kmer.enc kmer.enc : ℚ) then
        if f < i then setupLoopGAux cfg N fuel (i + 2) (f + 1) (listSwap kmers i f)
        else setupLoopGAux cfg N fuel (i + 2) f kmers
      else setupLoopGAux cfg N fuel (i + 2) f kmers
    else (kmers, f)

/-- The setup filter loop `for (i = 0; i < N; i++) { ...; i++; }` of the
global overload. -/
def setupLoopG (cfg : RunCfg) (N : ℕ) (kmers : List KRec) : List KRec × ℕ :=
  setupLoopGAux cfg N N 0 0 kmers

/-- Per-thread setup filter of the banded overload: same guarded swap, but the
index advances by 1 and the loop is bounded by the thread's band end. -/
def setupLoopBAux (cfg : RunCfg) (endIdx : ℕ) : ℕ → ℕ → ℕ → List KRec → List KRec × ℕ
  | 0, _, f, kmers => (kmers, f)
  | fuel + 1, i, f, kmers =>
    if i < endIdx then
      let kmer := kmers.getD i default
      if cfg.T < (cfg.d kmer.enc kmer.enc : ℚ) then
        if f < i then setupLoopBAux cfg endIdx fuel (i + 1) (f + 1) (listSwap kmers i f)
        else setupLoopBAux cfg endIdx fuel (i + 1) f kmers
      else setupLoopBAux cfg endIdx fuel (i + 1) f kmers
    else (kmers, f)

/-- The banded per-thread setup filter
`for (i = beginIdx; i < endIdx; i++)` with `firstUnallocIndex[t] = beginIdx`. -/
def setupLoopB (cfg : RunCfg) (endIdx beginIdx : ℕ) (kmers : List KRec) :
    List KRec × ℕ :=
  setupLoopBAux cfg endIdx (endIdx - beginIdx) beginIdx beginIdx kmers

/-- Shuffle of the unassigned range `[f, hi)`: each position is swapped with
`f + (size_t)(rand() * (hi - f))`; the draw at position `i` is modelled by
`rands i` reduced into the live range. -/
def shuffleRange (cfg : RunCfg) (hi f : ℕ) (kmers : List KRec) : List KRec :=
  (List.range' f (hi - f)).foldl
    (fun ks i => listSwap ks i (f + cfg.rands i % (hi - f))) kmers

/-! ### The pass loops of `DoExhaustiveIncrementalClustering`

The `while` loops are modelled by structural recursion on a fuel argument.
The fuel `N + 1` supplied by the exhaustive drivers is an upper bound on the
iteration count of the C++ loop (each iteration other than the last strictly
increases the allocated count, which is bounded by `N`); the claim-C8 theorem
proves that the returned state satisfies the loop's exit condition, so the
fuel-exhausted branch is never the one that produces the result. -/

/-- The pass loop of the global `DoExhaustiveIncrementalClustering`: while
unassigned k-mers remain, run one incremental pass; break when a pass makes no
progress; after a progress pass the increment becomes `clusterIncrement` and
`firstClusterIndex` advances to the end of the cluster list. -/
def passLoopGAux (cfg : RunCfg) (N : ℕ) : ℕ → ℕ → ℕ → GState → Except String GState
  | 0, _, _, st => .ok st
  | fuel + 1, fci, increment, st =>
    if st.firstUnalloc < N then
      match doIncrementalClusteringParallel cfg increment fci st with
      | .error e => .error e
      | .ok st2 =>
        if st2.firstUnalloc = st.firstUnalloc then .ok st2
        else passLoopGAux cfg N fuel st2.clusters.length cfg.clusterIncrement st2
    else .ok st

/-- The global pass loop, entered with full fuel. -/
def passLoopG (cfg : RunCfg) (N fci increment : ℕ) (st : GState) :
    Except String GState :=
  passLoopGAux cfg N (N + 1) fci increment st

/-- The pass loop of the banded `DoExhaustiveIncrementalClustering`, with
progress measured by `GetUnallocated`. -/
def passLoopBAux (cfg : RunCfg) (numThreads N : ℕ) :
    ℕ → ℕ → ℕ → BState → Except String BState
  | 0, _, _, st => .ok st
  | fuel + 1, fci, increment, st =>
    if getUnallocated numThreads N st.firstUnalloc < N then
      match doIncrementalClusteringParallelBanded cfg numThreads increment fci st with
      | .error e => .error e
      | .ok st2 =>
        if getUnallocated numThreads N st2.firstUnalloc =
            getUnallocated numThreads N st.firstUnalloc then .ok st2
        else passLoopBAux cfg numThreads N fuel st2.clusters.length cfg.clusterIncrement st2
    else .ok st

/-- The banded pass loop, entered with full fuel. -/
def passLoopB (cfg : RunCfg) (numThreads N fci increment : ℕ) (st : BState) :
    Except String BState :=
  passLoopBAux cfg numThreads N (N + 1) fci increment st

/-- `KmerCluster::DoExhaustiveIncrementalClustering` (global overload): setup
filter, shuffle, then the pass loop starting with `firstClusterIndex = 0` and
an initial increment of 0 when pre-existing clusters were supplied. -/
def doExhaustiveIncrementalClustering (cfg : RunCfg) (allKmers : List KRec)
    (clusters0 : List GCluster) : Except String GState :=
  let N := allKmers.length
  let sf := setupLoopG cfg N allKmers
  let kmers1 := shuffleRange cfg N sf.2 sf.1
  let increment := if 0 < clusters0.length then 0 else cfg.clusterIncrement
  passLoopG cfg N 0 increment { kmers := kmers1, firstUnalloc := sf.2, clusters := clusters0 }

/-- `KmerCluster::DoExhaustiveIncrementalClustering` (banded overload): each
thread filters and shuffles its own band `[t*N/nT, (t+1)*N/nT)`, initialising
its high-water mark at the band start; then the banded pass loop runs. -/
def doExhaustiveIncrementalClusteringBanded (cfg : RunCfg) (allKmers : List KRec)
    (clusters0 : List GCluster) (numThreads : ℕ) : Except String BState :=
  let N := allKmers.length
  let init := (List.range numThreads).foldl
    (fun (acc : List KRec × List ℕ) t =>
      let beginIdx := t * N / numThreads
      let endIdx := (t + 1) * N / numThreads
      let sf := setupLoopB cfg endIdx beginIdx acc.1
      (shuffleRange cfg endIdx sf.2 sf.1, acc.2 ++ [sf.2]))
    (allKmers, [])
  let increment := if 0 < clusters0.length then 0 else cfg.clusterIncrement
  passLoopB cfg numThreads N 0 increment
    { kmers := init.1, firstUnalloc := init.2, clusters := clusters0 }

/-! ## The k-mer index (`KmerIndex.hpp`, `Kmer.hpp`)

Sequences are modelled by their residue lists; a sequence is identified by its
index in the dataset.  The index maps each distinct k-mer content (byte-exact
substring equality, `Substring::operator==`) to its `Kmer` record, which owns
the list of `(sequence, position)` instances (`Kmer::Add` appends one per
occurrence). -/

/-- `EncodedFastaSequence::KmerCount`: `length >= K ? length + 1 - K : 0`. -/
def kmerCount (seqLen k : ℕ) : ℕ := if k ≤ seqLen then seqLen + 1 - k else 0

/-- One record of the index: the k-mer's character content and its instance
list (`Kmer::Instances`), each instance a (sequence index, offset) pair. -/
structure KEntry where
  key : List ℕ
  instances : List (ℕ × ℕ)
deriving DecidableEq, Repr

/-- One step of the `KmerIndex` constructor body: look the substring up; if
absent create a record with this first instance, else append the instance to
the existing record (`Kmer::Add`). -/
def addInstance : List KEntry → List ℕ → ℕ × ℕ → List KEntry
  | [], key, inst => [⟨key, [inst]⟩]
  | e :: rest, key, inst =>
    if e.key = key then ⟨e.key, e.instances ++ [inst]⟩ :: rest
    else e :: addInstance rest key inst

/-- The per-sequence loop of the `KmerIndex` constructor: skip sequences
shorter than the k-mer length, else insert the window at every start position
in `[0, KmerCount)`. -/
def indexSequence (idx : List KEntry) (seqIdx : ℕ) (residues : List ℕ) (k : ℕ) :
    List KEntry :=
  if residues.length < k then idx
  else (List.range (kmerCount residues.length k)).foldl
    (fun idx pos => addInstance idx ((residues.drop pos).take k) (seqIdx, pos)) idx

/-- `KmerIndex::KmerIndex(dataset, length, kmerLength)`. -/
def kmerIndex (dataset : List (List ℕ)) (k : ℕ) : List KEntry :=
  dataset.enum.foldl (fun idx p => indexSequence idx p.1 p.2 k) []

/-! ## Exact medoid search (`KMedoids::GetMedoid`) -/

/-- The `allocatedDist` accumulated for one candidate in `GetMedoid`: the sum
of its distances to *every* member of the cluster assignment.  The inner-loop
line `if (j == i) continue;` is commented out in the source, so the candidate's
own self-distance is part of the sum. -/
def allocatedDist (dist : ℕ → ℕ → ℕ) (kmerCodes clusterAssignment : List ℕ)
    (candidatePos : ℕ) : ℕ :=
  (clusterAssignment.map
    (fun comparePos => dist (kmerCodes.getD candidatePos 0) (kmerCodes.getD comparePos 0))).sum

/-- `KMedoids::GetMedoid`: for a non-empty assignment, scan the members and
keep the first strict minimiser of `allocatedDist`, starting from
`clusterAssignment[0]`; the winning global position determines `protoPtr` and
`protoCode`.  An empty assignment yields the null prototype (`none`). -/
def getMedoid (dist : ℕ → ℕ → ℕ) (kmerCodes clusterAssignment : List ℕ) :
    Option ℕ :=
  match clusterAssignment with
  | [] => none
  | a0 :: _ => some (clusterAssignment.foldl
      (fun m c => if allocatedDist dist kmerCodes clusterAssignment c <
        allocatedDist dist kmerCodes clusterAssignment m then c else m) a0)

/-! ## Spec-side definitions for the refinement claims

These two definitions follow the *spec's* words rather than the source; the
claims compare them with the source-derived functions above. -/

/-- From the spec, for claim C5: a naive recomputation of the k-mer distance,
applying the raw tuple distance function directly to the successive chunks of
the two character strings (no tables, no packing), accumulated in the same
`Distance` (`uint16_t`) type the program uses. -/
def specNaiveDistance (raw : List ℕ → List ℕ → ℕ → ℕ) (x y : List ℕ) : ℕ :=
  ((chunk3 x).zip (chunk3 y)).foldl
    (fun d p => u16add d ((raw p.1 p.2 p.1.length : ℕ) : ℤ)) 0

/-- From the spec, for claim C5: the same naive recomputation as an unbounded
natural-number sum (no `uint16_t` wrapping). -/
def specNaiveSum (raw : List ℕ → List ℕ → ℕ → ℕ) (x y : List ℕ) : ℕ :=
  (((chunk3 x).zip (chunk3 y)).map (fun p => raw p.1 p.2 p.1.length)).sum

/-- From the spec, for claim C9: the total distance from a member point to all
*other* members of the cluster. -/
def specTotalDistToOthers (dist : ℕ → ℕ → ℕ) (kmerCodes clusterAssignment : List ℕ)
    (p : ℕ) : ℕ :=
  ((clusterAssignment.filter (fun q => q ≠ p)).map
    (fun q => dist (kmerCodes.getD p 0) (kmerCodes.getD q 0))).sum

/-- From the spec, for claim C1: every member of every cluster is within the
run's threshold of its cluster's prototype. -/
def membersWithinThreshold (cfg : RunCfg) (cs : List GCluster) : Prop :=
  ∀ c ∈ cs, ∀ m ∈ c.members, (cfg.d c.protoEnc m.enc : ℚ) ≤ cfg.T

/-- From the spec, for claim C3: the records a scan over positions
`[i0, i0 + n)` of the array `orig` assigns to cluster `u` against the fixed
prototype list `cs0`, in scan order — exactly those whose first-fit attractor
search returns cluster `u`, updated with the winning distance. -/
def specAssignedG (cfg : RunCfg) (fci : ℕ) (orig : List KRec) (cs0 : List GCluster)
    (i0 n u : ℕ) : List KRec :=
  (List.range' i0 n).filterMap (fun i =>
    match findAttractor cfg.d cfg.T cs0 (orig.getD i default).enc fci with
    | some (j', dj) =>
      if j' = u then some { orig.getD i default with dist := dj } else none
    | none => none)

/-- From the spec, for claim C3: how many of the positions `[i0, i0 + n)`
the first-fit search assigns to some cluster. -/
def specHitsG (cfg : RunCfg) (fci : ℕ) (orig : List KRec) (cs0 : List GCluster)
    (i0 n : ℕ) : ℕ :=
  ((List.range' i0 n).filter (fun i =>
    (findAttractor cfg.d cfg.T cs0 (orig.getD i default).enc fci).isSome)).length

/-- From the spec, for claim C3: the banded scan's assignments to cluster `u`,
thread bands `t0, …, t0 + m - 1` in order; thread `t` scans
`[init[t], (t+1)·N/numThreads)` of the original array. -/
def specAssignedB (cfg : RunCfg) (numThreads fci : ℕ) (orig : List KRec)
    (cs0 : List GCluster) (init : List ℕ) : ℕ → ℕ → ℕ → List KRec
  | _, 0, _ => []
  | t0, m + 1, u =>
    specAssignedG cfg fci orig cs0 (init.getD t0 0)
      ((t0 + 1) * orig.length / numThreads - init.getD t0 0) u ++
    specAssignedB cfg numThreads fci orig cs0 init (t0 + 1) m u

/-! ## Concrete instances used by counterexamples, failing-input evaluations
and witnesses -/

/-- Distance ignoring the encodings entirely; threshold 0; prototypes encode
the seed's own packed encoding (as `KmerClusterPrototype::SingletonKmer` does);
random stream constantly 0; `clusterIncrement = 1`. -/
def cfgA : RunCfg := ⟨fun _ _ => 0, 0, fun r => r.enc, fun _ => 0, 1⟩

/-- Two distinct records (pointer ids 1 and 2). -/
def kmersA : List KRec := [⟨1, 10, 0⟩, ⟨2, 20, 0⟩]

/-- A distance that is 1 whenever either encoding is 9 and 0 otherwise: the
record with encoding 9 has self-distance 1, above the threshold 0. -/
def cfgB : RunCfg := ⟨fun a b => if a = 9 ∨ b = 9 then 1 else 0, 0, fun r => r.enc, fun _ => 0, 1⟩

/-- A good record (id 1) followed by a record whose self-distance exceeds the
threshold (id 2, encoding 9). -/
def kmersB : List KRec := [⟨1, 5, 0⟩, ⟨2, 9, 0⟩]

/-- A symmetric point-distance on three points 0, 1, 2 with a non-zero
self-distance at point 0 (as BLOSUM-difference distances have):
`d(0,0) = 4`, `d(1,2) = d(2,1) = 3`, `d(1,1) = d(2,2) = 0`, rest 1. -/
def dMed : ℕ → ℕ → ℕ := fun a b =>
  if a = 0 ∧ b = 0 then 4 else if (a = 1 ∧ b = 2) ∨ (a = 2 ∧ b = 1) then 3
  else if a = b then 0 else 1

/-- A raw tuple distance that is constantly 127 (fits `int8_t`). -/
def rawMax : List ℕ → List ℕ → ℕ → ℕ := fun _ _ _ => 127

/-- The three tables `PrecomputeDistances` builds from `rawMax` over the
one-symbol alphabet. -/
def tblMax1 : ℕ → ℕ → ℤ := cacheTable 1 1 rawMax

/-- 2-symbol table over the one-symbol alphabet, from `rawMax`. -/
def tblMax2 : ℕ → ℕ → ℤ := cacheTable 1 2 rawMax

/-- 3-symbol table over the one-symbol alphabet, from `rawMax`. -/
def tblMax3 : ℕ → ℕ → ℤ := cacheTable 1 3 rawMax

/-- The packed encoding of a string of 1551 identical symbols over the
one-symbol alphabet: 517 packed words. -/
def codeMax : List ℕ := List.replicate 517 0

/-! ## Theorems -/

/-- **C10.** Both overloads of `DoIncrementalClusteringParallel` throw (and
with exactly the source's message) at entry if and only if the clusters list
is empty and `requestedClusterCount` is zero; when the clusters list is
non-empty or `requestedClusterCount` is positive the entry check does not
raise and the call returns normally.  The check is the first statement of the
function, so on the error path the seed and scan phases are never entered and
no state is touched. -/
theorem c10_entry_check (cfg : RunCfg) (requested fci numThreads : ℕ)
    (st : GState) (stB : BState) :
    ((doIncrementalClusteringParallel cfg requested fci st =
        .error "clusters.size() == 0 && requestedClusterCount == 0") ↔
      (st.clusters = [] ∧ requested = 0)) ∧
    ((st.clusters ≠ [] ∨ 0 < requested) →
      doIncrementalClusteringParallel cfg requested fci st =
        .ok (scanPhaseG cfg fci (seedPhaseG cfg requested st))) ∧
    ((doIncrementalClusteringParallelBanded cfg numThreads requested fci stB =
        .error "clusters.size() == 0 && requestedClusterCount == 0") ↔
      (stB.clusters = [] ∧ requested = 0)) ∧
    ((stB.clusters ≠ [] ∨ 0 < requested) →
      doIncrementalClusteringParallelBanded cfg numThreads requested fci stB =
        .ok (scanPhaseB cfg numThreads fci (seedPhaseB cfg numThreads requested stB))) := by
  refine ⟨?_, ?_, ?_, ?_⟩
  · unfold doIncrementalClusteringParallel
    split
    · simp_all
    · simp_all
  · intro h
    unfold doIncrementalClusteringParallel
    split
    · rcases h with h | h
      · exact absurd (by assumption : st.clusters = [] ∧ requested = 0).1 h
      · omega
    · rfl
  · unfold doIncrementalClusteringParallelBanded
    split
    · simp_all
    · simp_all
  · intro h
    unfold doIncrementalClusteringParallelBanded
    split
    · rcases h with h | h
      · exact absurd (by assumption : stB.clusters = [] ∧ requested = 0).1 h
      · omega
    · rfl

/-- **C10 witness.** At a concrete empty-clusters, zero-increment call the
entry check raises; with increment 1 it returns normally. -/
theorem c10_entry_check_witness :
    doIncrementalClusteringParallel cfgA 0 0 ⟨kmersA, 0, []⟩ =
      .error "clusters.size() == 0 && requestedClusterCount == 0" :=
  (c10_entry_check cfgA 0 0 1 ⟨kmersA, 0, []⟩ ⟨kmersA, [0], []⟩).1.mpr ⟨rfl, rfl⟩

/-- **C2 (failing input).** A banded run (`numThreads = 1`,
`clusterIncrement = 1`, threshold 0, distance constantly 0) over the two
records `kmersA`, starting from no clusters, ends with the record of id 2 in
the member lists of *two* clusters while it still lies inside the unassigned
range (`firstUnallocIndex[0] = 1`, and position 1 holds id 2): the banded scan
increments `firstUnallocIndex[threadId]` only inside
`if (i > firstUnallocIndex[threadId])`, so the record scanned at the start of
its band is added to a cluster without ever being allocated, and the next pass
adds it again. -/
theorem c2_banded_duplicate_member :
    (match doExhaustiveIncrementalClusteringBanded cfgA kmersA [] 1 with
      | .ok st => some (st.clusters.map (fun c => c.members.map KRec.id),
          st.firstUnalloc, st.kmers.map KRec.id)
      | .error _ => none) = some ([[2, 1], [2]], [1], [1, 2]) := by decide

/-- **C4 (failing input).** In the global run over `kmersB` (id 2 has
self-distance 1 above threshold 0), the setup filter's stray second `i++`
skips index 1 entirely, so after setup the bad record still lies inside the
unassigned working range (`firstUnallocIndex = 0`); the following pass then
seeds a new cluster prototype from that very record (prototype encoding 9).
The run ends with the bad record at position 0, still inside the unassigned
range. -/
theorem c4_setup_filter_misses_bad_kmer :
    setupLoopG cfgB 2 kmersB = (kmersB, 0) ∧
    cfgB.T < (cfgB.d 9 9 : ℚ) ∧
    (match doExhaustiveIncrementalClustering cfgB kmersB [] with
      | .ok st => some (st.firstUnalloc, st.clusters.map GCluster.protoEnc,
          st.kmers.map KRec.id)
      | .error _ => none) = some (0, [9], [2, 1]) := by decide

/-! ### C9: exact medoid search -/

theorem foldl_pick_mem (g : ℕ → ℕ) :
    ∀ (l : List ℕ) (a : ℕ),
      (l.foldl (fun m c => if g c < g m then c else m) a) = a ∨
      (l.foldl (fun m c => if g c < g m then c else m) a) ∈ l := by
  intro l
  induction l with
  | nil => intro a; exact Or.inl rfl
  | cons c l ih =>
    intro a
    rcases ih (if g c < g a then c else a) with h | h
    · rw [List.foldl_cons, h]
      split
      · exact Or.inr (List.mem_cons_self _ _)
      · exact Or.inl rfl
    · exact Or.inr (List.mem_cons_of_mem _ h)

theorem foldl_pick_le (g : ℕ → ℕ) :
    ∀ (l : List ℕ) (a x : ℕ), (x = a ∨ x ∈ l) →
      g (l.foldl (fun m c => if g c < g m then c else m) a) ≤ g x := by
  intro l
  induction l with
  | nil =>
    intro a x hx
    rcases hx with rfl | hx
    · exact le_refl _
    · cases hx
  | cons c l ih =>
    intro a x hx
    rw [List.foldl_cons]
    have hstep : ∀ y, (y = a ∨ y = c) →
        g (if g c < g a then c else a) ≤ g y := by
      intro y hy
      rcases hy with rfl | rfl
      · split
        · omega
        · exact le_refl _
      · split
        · exact le_refl _
        · omega
    rcases hx with rfl | hx
    · exact le_trans (ih _ _ (Or.inl rfl)) (hstep _ (Or.inl rfl))
    · rcases List.mem_cons.mp hx with rfl | hx
      · exact le_trans (ih _ _ (Or.inl rfl)) (hstep _ (Or.inr rfl))
      · exact ih _ _ (Or.inr hx)

/-- **C9 counterexample.** With the symmetric distance `dMed` (self-distance 4
at point 0) and the three-member assignment `[0, 1, 2]`, `GetMedoid` selects
member 1, whose total distance to the *other* members is 4, while member 0's
total distance to the others is 2: the selected prototype does not minimise
the total distance to the other members, because the source sums the
candidate's own self-distance as well (`if (j == i) continue;` is commented
out). -/
theorem c9_counterexample :
    getMedoid dMed [0, 1, 2] [0, 1, 2] = some 1 ∧
    specTotalDistToOthers dMed [0, 1, 2] [0, 1, 2] 0 <
      specTotalDistToOthers dMed [0, 1, 2] [0, 1, 2] 1 := by decide

/-- **C9 (amended).** For every non-empty cluster assignment,
`KMedoids::GetMedoid` sets the prototype to a member point that minimises the
total distance to *all* members of the cluster, the candidate's own
self-distance included; for an empty assignment it sets the prototype pointer
and code to null. -/
theorem c9_medoid_minimises_total_distance (dist : ℕ → ℕ → ℕ)
    (kmerCodes clusterAssignment : List ℕ) :
    (getMedoid dist kmerCodes clusterAssignment = none ↔ clusterAssignment = []) ∧
    (∀ p, getMedoid dist kmerCodes clusterAssignment = some p →
      p ∈ clusterAssignment ∧ ∀ q ∈ clusterAssignment,
        allocatedDist dist kmerCodes clusterAssignment p ≤
          allocatedDist dist kmerCodes clusterAssignment q) := by
  constructor
  · cases clusterAssignment with
    | nil => simp [getMedoid]
    | cons a0 rest => simp [getMedoid]
  · intro p hp
    cases clusterAssignment with
    | nil => cases hp
    | cons a0 rest =>
      have hp2 : (a0 :: rest).foldl
          (fun m c => if allocatedDist dist kmerCodes (a0 :: rest) c <
            allocatedDist dist kmerCodes (a0 :: rest) m then c else m) a0 = p := by
        have := hp
        unfold getMedoid at this
        exact Option.some.inj this
      constructor
      · rcases foldl_pick_mem (allocatedDist dist kmerCodes (a0 :: rest))
          (a0 :: rest) a0 with h | h
        · rw [hp2] at h; rw [h]; exact List.mem_cons_self _ _
        · rw [hp2] at h; exact h
      · intro q hq
        have := foldl_pick_le (allocatedDist dist kmerCodes (a0 :: rest))
          (a0 :: rest) a0 q (Or.inr hq)
        rw [hp2] at this
        exact this

/-! ### C7: index completeness -/

/-- Total number of instances recorded in the index. -/
def instanceTotal (idx : List KEntry) : ℕ :=
  (idx.map (fun e => e.instances.length)).sum

theorem addInstance_total (idx : List KEntry) (key : List ℕ) (inst : ℕ × ℕ) :
    instanceTotal (addInstance idx key inst) = instanceTotal idx + 1 := by
  induction idx with
  | nil => simp [addInstance, instanceTotal]
  | cons e rest ih =>
    by_cases h : e.key = key
    · simp [addInstance, h, instanceTotal]
      omega
    · simp only [addInstance, if_neg h]
      simp only [instanceTotal, List.map_cons, List.sum_cons] at ih ⊢
      omega

theorem foldl_addInstance_total {β : Type _} (key : β → List ℕ) (inst : β → ℕ × ℕ) :
    ∀ (l : List β) (idx : List KEntry),
      instanceTotal (l.foldl (fun idx b => addInstance idx (key b) (inst b)) idx) =
        instanceTotal idx + l.length := by
  intro l
  induction l with
  | nil => intro idx; simp
  | cons b l ih =>
    intro idx
    rw [List.foldl_cons, ih, addInstance_total]
    simp only [List.length_cons]
    omega

theorem indexSequence_total (idx : List KEntry) (seqIdx : ℕ) (residues : List ℕ)
    (k : ℕ) : instanceTotal (indexSequence idx seqIdx residues k) =
      instanceTotal idx + kmerCount residues.length k := by
  unfold indexSequence
  split
  · have : kmerCount residues.length k = 0 := by
      unfold kmerCount
      split <;> omega
    omega
  · rw [foldl_addInstance_total (fun pos => (residues.drop pos).take k)
      (fun pos => (seqIdx, pos))]
    simp

/-- **C7.** For every sequence collection and every k-mer length, the sum over
all distinct k-mer records of the size of their instance lists equals the
total sliding-window k-mer count — the sum over all input sequences of
`KmerCount` (window start positions); in particular a sequence shorter than
the k-mer length contributes zero instances. -/
theorem c7_index_completeness (dataset : List (List ℕ)) (k : ℕ) :
    ((kmerIndex dataset k).map (fun e => e.instances.length)).sum =
      (dataset.map (fun s => kmerCount s.length k)).sum ∧
    (∀ s : List ℕ, s.length < k → kmerCount s.length k = 0) := by
  constructor
  · have H : ∀ (l : List (ℕ × List ℕ)) (idx : List KEntry),
        instanceTotal (l.foldl (fun idx p => indexSequence idx p.1 p.2 k) idx) =
          instanceTotal idx + (l.map (fun p => kmerCount p.2.length k)).sum := by
      intro l
      induction l with
      | nil => intro idx; simp
      | cons p l ih =>
        intro idx
        rw [List.foldl_cons, ih, indexSequence_total]
        simp only [List.map_cons, List.sum_cons]
        omega
    have h2 := H dataset.enum []
    unfold kmerIndex
    unfold instanceTotal at h2
    rw [h2]
    have h3 : dataset.enum.map (fun p => kmerCount p.2.length k) =
        dataset.map (fun s => kmerCount s.length k) := by
      have : dataset.enum.map (fun p => kmerCount p.2.length k) =
          (dataset.enum.map Prod.snd).map (fun s => kmerCount s.length k) := by
        rw [List.map_map]
        rfl
      rw [this, List.enum_map_snd]
    rw [h3]
    simp
  · intro s hs
    unfold kmerCount
    split <;> omega

/-! ### C6: early-exit equivalence -/

theorem u16add_of_nonneg {d : ℕ} {c : ℤ} (h0 : 0 ≤ c)
    (h : d + c.toNat < 65536) : u16add d c = d + c.toNat := by
  obtain ⟨m, rfl⟩ : ∃ m : ℕ, c = (m : ℤ) := ⟨c.toNat, (Int.toNat_of_nonneg h0).symm⟩
  unfold u16add u16
  omega

theorem foldl_u16add_range (t3 : ℕ → ℕ → ℤ) (sCode tCode : List ℕ)
    (hnn : ∀ a b, 0 ≤ t3 a b) :
    ∀ (l : List ℕ) (d0 : ℕ),
      d0 + (l.map (fun i => (t3 (sCode.getD i 0) (tCode.getD i 0)).toNat)).sum < 65536 →
      l.foldl (fun d i => u16add d (t3 (sCode.getD i 0) (tCode.getD i 0))) d0 =
        d0 + (l.map (fun i => (t3 (sCode.getD i 0) (tCode.getD i 0)).toNat)).sum := by
  intro l
  induction l with
  | nil => intro d0 _; simp
  | cons j l ih =>
    intro d0 hb
    simp only [List.map_cons, List.sum_cons] at hb ⊢
    rw [List.foldl_cons, u16add_of_nonneg (hnn _ _) (by omega), ih _ (by omega)]
    omega

theorem isWithinLoop_spec (t3 : ℕ → ℕ → ℤ) (sCode tCode : List ℕ) (thr : ℕ)
    (hnn : ∀ a b, 0 ≤ t3 a b) :
    ∀ (n i d0 : ℕ), d0 + cell3Sum t3 sCode tCode i n < 65536 → d0 ≤ thr →
      isWithinLoop t3 sCode tCode thr n i d0 =
        (if d0 + cell3Sum t3 sCode tCode i n ≤ thr
          then some (d0 + cell3Sum t3 sCode tCode i n) else none) := by
  intro n
  induction n with
  | zero =>
    intro i d0 _ hle
    simp [isWithinLoop, cell3Sum, hle]
  | succ n ih =>
    intro i d0 hb hle
    have hsum : cell3Sum t3 sCode tCode i (n + 1) =
        (t3 (sCode.getD i 0) (tCode.getD i 0)).toNat +
          cell3Sum t3 sCode tCode (i + 1) n := by
      unfold cell3Sum
      rw [List.range'_succ]
      simp
    rw [hsum] at hb ⊢
    have hd' : u16add d0 (t3 (sCode.getD i 0) (tCode.getD i 0)) =
        d0 + (t3 (sCode.getD i 0) (tCode.getD i 0)).toNat :=
      u16add_of_nonneg (hnn _ _) (by omega)
    rw [show isWithinLoop t3 sCode tCode thr (n + 1) i d0 =
        (if thr < u16add d0 (t3 (sCode.getD i 0) (tCode.getD i 0)) then none
         else isWithinLoop t3 sCode tCode thr n (i + 1)
           (u16add d0 (t3 (sCode.getD i 0) (tCode.getD i 0)))) from rfl]
    rw [hd']
    by_cases hx : thr < d0 + (t3 (sCode.getD i 0) (tCode.getD i 0)).toNat
    · rw [if_pos hx, if_neg (by omega)]
    · rw [if_neg hx, ih (i + 1) _ (by omega) (by omega), Nat.add_assoc]

theorem getDistance3_eq_cellSumN (t1 t2 t3 : ℕ → ℕ → ℤ) (sCode tCode : List ℕ)
    (k : ℕ) (hnn : ∀ a b, 0 ≤ t1 a b ∧ 0 ≤ t2 a b ∧ 0 ≤ t3 a b)
    (hov : cellSumN t1 t2 t3 sCode tCode k < 65536) :
    getDistance3 t1 t2 t3 sCode tCode k = cellSumN t1 t2 t3 sCode tCode k := by
  unfold cellSumN at hov
  have h3 : k % 3 = 0 ∨ k % 3 = 1 ∨ k % 3 = 2 := by omega
  have hfold := foldl_u16add_range t3 sCode tCode (fun a b => (hnn a b).2.2)
    (List.range (k / 3)) 0 (by omega)
  rw [Nat.zero_add] at hfold
  simp only [getDistance3]
  rw [hfold]
  unfold cellSumN
  rcases h3 with h3 | h3 | h3
  · rw [if_pos h3, if_pos h3]
    omega
  · rw [if_neg (by omega : ¬ k % 3 = 0), if_pos h3] at hov
    rw [if_neg (by omega : ¬ k % 3 = 0), if_pos h3,
      if_neg (by omega : ¬ k % 3 = 0), if_pos h3]
    exact u16add_of_nonneg (hnn _ _).1 (by omega)
  · rw [if_neg (by omega : ¬ k % 3 = 0), if_neg (by omega : ¬ k % 3 = 1)] at hov
    rw [if_neg (by omega : ¬ k % 3 = 0), if_neg (by omega : ¬ k % 3 = 1),
      if_neg (by omega : ¬ k % 3 = 0), if_neg (by omega : ¬ k % 3 = 1)]
    exact u16add_of_nonneg (hnn _ _).2.1 (by omega)

theorem isWithin3_spec (t1 t2 t3 : ℕ → ℕ → ℤ) (sCode tCode : List ℕ)
    (k thr r0 : ℕ) (hnn : ∀ a b, 0 ≤ t1 a b ∧ 0 ≤ t2 a b ∧ 0 ≤ t3 a b)
    (hov : cellSumN t1 t2 t3 sCode tCode k < 65536) :
    isWithin3 t1 t2 t3 sCode tCode k thr r0 =
      (if cellSumN t1 t2 t3 sCode tCode k ≤ thr
        then (true, cellSumN t1 t2 t3 sCode tCode k) else (false, r0)) := by
  have hloopSum : cell3Sum t3 sCode tCode 0 (k / 3) =
      ((List.range (k / 3)).map
        (fun i => (t3 (sCode.getD i 0) (tCode.getD i 0)).toNat)).sum := by
    unfold cell3Sum
    rw [List.range_eq_range']
  unfold cellSumN at hov ⊢
  rw [← hloopSum] at hov ⊢
  have h3 : k % 3 = 0 ∨ k % 3 = 1 ∨ k % 3 = 2 := by omega
  have hloop := isWithinLoop_spec t3 sCode tCode thr (fun a b => (hnn a b).2.2)
    (k / 3) 0 0 (by omega) (by omega)
  rw [Nat.zero_add] at hloop
  by_cases hy : cell3Sum t3 sCode tCode 0 (k / 3) ≤ thr
  · have hloopT : isWithinLoop t3 sCode tCode thr (k / 3) 0 0 =
        some (cell3Sum t3 sCode tCode 0 (k / 3)) := by
      rw [hloop, if_pos hy]
    rcases h3 with h3 | h3 | h3
    · rw [if_pos h3] at hov ⊢
      simp only [isWithin3, hloopT, if_pos h3]
      rw [if_pos (by omega : cell3Sum t3 sCode tCode 0 (k / 3) + 0 ≤ thr)]
      simp
    · rw [if_neg (by omega : ¬ k % 3 = 0), if_pos h3] at hov ⊢
      simp only [isWithin3, hloopT, if_neg (show ¬ k % 3 = 0 by omega), if_pos h3]
      rw [u16add_of_nonneg (hnn _ _).1 (by omega)]
      by_cases hz : cell3Sum t3 sCode tCode 0 (k / 3) +
          (t1 (sCode.getD (k / 3) 0) (tCode.getD (k / 3) 0)).toNat ≤ thr
      · rw [if_neg (by omega), if_pos hz]
      · rw [if_pos (by omega), if_neg hz]
    · rw [if_neg (by omega : ¬ k % 3 = 0), if_neg (by omega : ¬ k % 3 = 1)] at hov ⊢
      simp only [isWithin3, hloopT, if_neg (show ¬ k % 3 = 0 by omega),
        if_neg (show ¬ k % 3 = 1 by omega)]
      rw [u16add_of_nonneg (hnn _ _).2.1 (by omega)]
      by_cases hz : cell3Sum t3 sCode tCode 0 (k / 3) +
          (t2 (sCode.getD (k / 3) 0) (tCode.getD (k / 3) 0)).toNat ≤ thr
      · rw [if_neg (by omega), if_pos hz]
      · rw [if_pos (by omega), if_neg hz]
  · have hloopT : isWithinLoop t3 sCode tCode thr (k / 3) 0 0 = none := by
      rw [hloop, if_neg hy]
    simp only [isWithin3, hloopT]
    rw [if_neg (by rcases h3 with h3 | h3 | h3 <;> simp only [h3] <;> omega)]

/-- **C6 counterexample.** All cells of the tables built from the constant raw
distance 127 over the one-symbol alphabet are non-negative (the claim's
precondition holds), and the codes are the genuine 3-per-word packing of a
1551-symbol string, yet at threshold 200 `IsWithin` returns `false` (leaving
`result` untouched at 999) while `GetDistance` returns 123 ≤ 200: the
`uint16_t` running total wraps (517 · 127 = 65659 ≡ 123 (mod 2^16)), so the
claimed equivalence `IsWithin(x,y,k,t) = true ↔ GetDistance(x,y,k) ≤ t` fails
for this input. -/
theorem c6_counterexample :
    (∀ a b, 0 ≤ tblMax1 a b ∧ 0 ≤ tblMax2 a b ∧ 0 ≤ tblMax3 a b) ∧
    pack3 1 (List.replicate 1551 0) = codeMax ∧
    getDistance3 tblMax1 tblMax2 tblMax3 codeMax codeMax 1551 = 123 ∧
    (123 : ℕ) ≤ 200 ∧
    isWithin3 tblMax1 tblMax2 tblMax3 codeMax codeMax 1551 200 999 =
      (false, 999) := by
  refine ⟨?_, ?_, ?_, ?_, ?_⟩
  · intro a b
    refine ⟨?_, ?_, ?_⟩ <;>
      simp [tblMax1, tblMax2, tblMax3, cacheTable, rawMax, int8OfNat]
  · set_option maxRecDepth 10000 in decide
  · set_option maxRecDepth 10000 in decide
  · decide
  · set_option maxRecDepth 10000 in decide

/-- **C6 (amended).** Provided every cached chunk distance is non-negative
*and* the total of the cells read stays below 2^16 (no `uint16_t` overflow of
the running `Distance` accumulator), `IsWithin(x, y, k, t, result)` returns
true if and only if `GetDistance(x, y, k) ≤ t`, for every threshold including
0 and the maximum representable `Distance`; when it returns true it stores
`result = GetDistance(x, y, k)`, and when it returns false `result` is
untouched. -/
theorem c6_early_exit_equivalence (t1 t2 t3 : ℕ → ℕ → ℤ)
    (sCode tCode : List ℕ) (k thr r0 : ℕ)
    (hnn : ∀ a b, 0 ≤ t1 a b ∧ 0 ≤ t2 a b ∧ 0 ≤ t3 a b)
    (hov : cellSumN t1 t2 t3 sCode tCode k < 65536) :
    ((isWithin3 t1 t2 t3 sCode tCode k thr r0).1 = true ↔
      getDistance3 t1 t2 t3 sCode tCode k ≤ thr) ∧
    ((isWithin3 t1 t2 t3 sCode tCode k thr r0).1 = true →
      (isWithin3 t1 t2 t3 sCode tCode k thr r0).2 =
        getDistance3 t1 t2 t3 sCode tCode k) ∧
    ((isWithin3 t1 t2 t3 sCode tCode k thr r0).1 = false →
      (isWithin3 t1 t2 t3 sCode tCode k thr r0).2 = r0) := by
  rw [isWithin3_spec t1 t2 t3 sCode tCode k thr r0 hnn hov,
    getDistance3_eq_cellSumN t1 t2 t3 sCode tCode k hnn hov]
  by_cases hy : cellSumN t1 t2 t3 sCode tCode k ≤ thr
  · rw [if_pos hy]
    refine ⟨by simpa using hy, fun _ => rfl, fun hfalse => by simp at hfalse⟩
  · rw [if_neg hy]
    refine ⟨by simpa using hy, fun htrue => by simp at htrue, fun _ => rfl⟩

/-- **C6 witness.** The amended equivalence applied at a concrete input:
tables from the constant raw distance 1 over the one-symbol alphabet, codes of
a 9-symbol string (3 words), threshold 2: `IsWithin` returns false, leaves
`result` at 777, and indeed `GetDistance = 3 > 2`. -/
theorem c6_early_exit_equivalence_witness :
    (isWithin3 (cacheTable 1 1 (fun _ _ _ => 1)) (cacheTable 1 2 (fun _ _ _ => 1))
        (cacheTable 1 3 (fun _ _ _ => 1)) [0, 0, 0] [0, 0, 0] 9 2 777).1 = false ∧
    (isWithin3 (cacheTable 1 1 (fun _ _ _ => 1)) (cacheTable 1 2 (fun _ _ _ => 1))
        (cacheTable 1 3 (fun _ _ _ => 1)) [0, 0, 0] [0, 0, 0] 9 2 777).2 = 777 := by
  have h := c6_early_exit_equivalence (cacheTable 1 1 (fun _ _ _ => 1))
    (cacheTable 1 2 (fun _ _ _ => 1)) (cacheTable 1 3 (fun _ _ _ => 1))
    [0, 0, 0] [0, 0, 0] 9 2 777
    (by intro a b; refine ⟨?_, ?_, ?_⟩ <;> simp [cacheTable, int8OfNat])
    (by decide)
  have hb : ¬ (isWithin3 (cacheTable 1 1 (fun _ _ _ => 1))
      (cacheTable 1 2 (fun _ _ _ => 1)) (cacheTable 1 3 (fun _ _ _ => 1))
      [0, 0, 0] [0, 0, 0] 9 2 777).1 = true := by
    intro hb
    exact absurd (h.1.mp hb) (by decide)
  exact ⟨by simpa using hb, h.2.2 (by simpa using hb)⟩

/-! ### C5: distance additivity of the packed tables -/

theorem encodeTuple_append_singleton (A : ℕ) (u : List ℕ) (b : ℕ) :
    encodeTuple A (u ++ [b]) = encodeTuple A u * A + b := by
  unfold encodeTuple
  rw [List.foldl_append]
  rfl

theorem encodeTuple_lt (A : ℕ) (u : List ℕ) (hu : ∀ d ∈ u, d < A) :
    encodeTuple A u < A ^ u.length := by
  induction u using List.reverseRecOn with
  | nil => simp [encodeTuple]
  | append_singleton u b ih =>
    have hb : b < A := hu b (by simp)
    have hA : 0 < A := by omega
    have h1 : encodeTuple A u < A ^ u.length :=
      ih (fun d hd => hu d (by simp [hd]))
    rw [encodeTuple_append_singleton, List.length_append, List.length_singleton,
      pow_succ]
    calc encodeTuple A u * A + b ≤ (A ^ u.length - 1) * A + b := by
          have : encodeTuple A u ≤ A ^ u.length - 1 := by omega
          exact Nat.add_le_add_right (Nat.mul_le_mul_right A this) b
      _ < A ^ u.length * A := by
          rw [Nat.sub_mul, one_mul]
          have hpow : A ≤ A ^ u.length * A :=
            Nat.le_mul_of_pos_left A (by positivity)
          omega

theorem decode_encode (A : ℕ) (u : List ℕ) (hu : ∀ d ∈ u, d < A) :
    decodeTuple A u.length (encodeTuple A u) = u := by
  induction u using List.reverseRecOn with
  | nil => rfl
  | append_singleton u b ih =>
    have hb : b < A := hu b (by simp)
    have hA : 0 < A := by omega
    rw [encodeTuple_append_singleton, List.length_append, List.length_singleton]
    show decodeTuple A (u.length + 1) (encodeTuple A u * A + b) = u ++ [b]
    unfold decodeTuple
    have hdiv : (encodeTuple A u * A + b) / A = encodeTuple A u := by
      rw [Nat.mul_comm, Nat.mul_add_div hA, Nat.div_eq_of_lt hb]
      omega
    have hmod : (encodeTuple A u * A + b) % A = b := by
      rw [Nat.mul_comm, Nat.mul_add_mod]
      exact Nat.mod_eq_of_lt hb
    rw [hdiv, hmod, ih (fun d hd => hu d (by simp [hd]))]

theorem int8OfNat_of_le {r : ℕ} (h : r ≤ 127) : int8OfNat r = r := by
  unfold int8OfNat
  rw [Nat.mod_eq_of_lt (by omega)]
  rw [if_pos (by omega)]

theorem cacheTable_encode (A c : ℕ) (raw : List ℕ → List ℕ → ℕ → ℕ)
    (u v : List ℕ) (hu : ∀ d ∈ u, d < A) (hv : ∀ d ∈ v, d < A)
    (hlu : u.length = c) (hlv : v.length = c)
    (hsym : raw v u c = raw u v c) (hfu : raw u v c ≤ 127) (hfv : raw v u c ≤ 127) :
    cacheTable A c raw (encodeTuple A u) (encodeTuple A v) = raw u v c := by
  have hdu : decodeTuple A c (encodeTuple A u) = u := by
    rw [← hlu]; exact decode_encode A u hu
  have hdv : decodeTuple A c (encodeTuple A v) = v := by
    rw [← hlv]; exact decode_encode A v hv
  unfold cacheTable
  rcases Nat.le_total (encodeTuple A u) (encodeTuple A v) with h | h
  · rw [Nat.max_eq_right h, Nat.min_eq_left h, hdu, hdv, int8OfNat_of_le hfv, hsym]
  · rw [Nat.max_eq_left h, Nat.min_eq_right h, hdu, hdv, int8OfNat_of_le hfu]

theorem u16_u16_add (z w : ℤ) : u16 ((u16 z : ℕ) + w) = u16 (z + w) := by
  unfold u16
  omega

theorem u16_lt (z : ℤ) : u16 z < 65536 := by
  unfold u16
  omega

theorem foldl_u16add_u16sum {α : Type _} (g : α → ℤ) :
    ∀ (l : List α) (d0 : ℕ), d0 < 65536 →
      l.foldl (fun d p => u16add d (g p)) d0 = u16 (d0 + (l.map g).sum) := by
  intro l
  induction l with
  | nil =>
    intro d0 hd0
    simp only [List.foldl_nil, List.map_nil, List.sum_nil, add_zero]
    unfold u16
    omega
  | cons p l ih =>
    intro d0 _
    rw [List.foldl_cons, ih (u16add d0 (g p)) (u16_lt _), List.map_cons,
      List.sum_cons]
    show u16 ((u16add d0 (g p) : ℕ) + (l.map g).sum) = u16 (d0 + (g p + (l.map g).sum))
    unfold u16add
    rw [u16_u16_add]
    congr 1
    ring

/-- The list of table cells `GetDistance` reads, in reading order: one
3-symbol cell per full word, then the remainder cell when `k mod 3 ≠ 0`. -/
def cellListZ (t1 t2 t3 : ℕ → ℕ → ℤ) (sCode tCode : List ℕ) (k : ℕ) : List ℤ :=
  (List.range (k / 3)).map (fun i => t3 (sCode.getD i 0) (tCode.getD i 0)) ++
  (if k % 3 = 0 then []
   else if k % 3 = 1 then [t1 (sCode.getD (k / 3) 0) (tCode.getD (k / 3) 0)]
   else [t2 (sCode.getD (k / 3) 0) (tCode.getD (k / 3) 0)])

theorem getDistance3_eq_u16_cellListZ (t1 t2 t3 : ℕ → ℕ → ℤ)
    (sCode tCode : List ℕ) (k : ℕ) :
    getDistance3 t1 t2 t3 sCode tCode k =
      u16 ((cellListZ t1 t2 t3 sCode tCode k).sum) := by
  have hfold : (List.range (k / 3)).foldl
      (fun d i => u16add d (t3 (sCode.getD i 0) (tCode.getD i 0))) 0 =
      u16 (((List.range (k / 3)).map
        (fun i => t3 (sCode.getD i 0) (tCode.getD i 0))).sum) := by
    exact (foldl_u16add_u16sum (fun i => t3 (sCode.getD i 0) (tCode.getD i 0))
      (List.range (k / 3)) 0 (by omega)).trans (by rw [Nat.cast_zero, zero_add])
  have h3 : k % 3 = 0 ∨ k % 3 = 1 ∨ k % 3 = 2 := by omega
  simp only [getDistance3]
  unfold cellListZ
  rcases h3 with h3 | h3 | h3
  · rw [if_pos h3, if_pos h3, hfold, List.append_nil]
  · rw [if_neg (by omega : ¬ k % 3 = 0), if_pos h3,
      if_neg (by omega : ¬ k % 3 = 0), if_pos h3, hfold]
    unfold u16add
    rw [u16_u16_add, List.sum_append, List.sum_singleton]
  · rw [if_neg (by omega : ¬ k % 3 = 0), if_neg (by omega : ¬ k % 3 = 1),
      if_neg (by omega : ¬ k % 3 = 0), if_neg (by omega : ¬ k % 3 = 1), hfold]
    unfold u16add
    rw [u16_u16_add, List.sum_append, List.sum_singleton]

theorem specNaiveDistance_eq_u16 (raw : List ℕ → List ℕ → ℕ → ℕ)
    (x y : List ℕ) :
    specNaiveDistance raw x y =
      u16 ((((chunk3 x).zip (chunk3 y)).map
        (fun p => ((raw p.1 p.2 p.1.length : ℕ) : ℤ))).sum) := by
  unfold specNaiveDistance
  exact (foldl_u16add_u16sum (fun p => ((raw p.1 p.2 p.1.length : ℕ) : ℤ))
    ((chunk3 x).zip (chunk3 y)) 0 (by omega)).trans (by rw [Nat.cast_zero, zero_add])

theorem listSumCast {α : Type _} (f : α → ℕ) :
    ∀ l : List α, ((l.map (fun p => ((f p : ℕ) : ℤ))).sum) = ((l.map f).sum : ℤ) := by
  intro l
  induction l with
  | nil => simp
  | cons p l ih => simp [ih]

theorem cellListZ_cons (t1 t2 t3 : ℕ → ℕ → ℤ) (w1 w2 : ℕ) (p1 p2 : List ℕ)
    (m : ℕ) :
    cellListZ t1 t2 t3 (w1 :: p1) (w2 :: p2) (m + 3) =
      t3 w1 w2 :: cellListZ t1 t2 t3 p1 p2 m := by
  unfold cellListZ
  rw [(by omega : (m + 3) / 3 = m / 3 + 1), (by omega : (m + 3) % 3 = m % 3),
    List.range_succ_eq_map, List.map_cons, List.map_map]
  rfl

theorem pack3_one (A a : ℕ) : pack3 A [a] = [encodeTuple A [a]] := rfl

theorem pack3_two (A a b : ℕ) : pack3 A [a, b] = [encodeTuple A [a, b]] := rfl

theorem pack3_cons3 (A a b c : ℕ) (r : List ℕ) :
    pack3 A (a :: b :: c :: r) = encodeTuple A [a, b, c] :: pack3 A r := rfl

theorem zip_chunk3_cons3 (a b c a2 b2 c2 : ℕ) (r r2 : List ℕ) :
    (chunk3 (a :: b :: c :: r)).zip (chunk3 (a2 :: b2 :: c2 :: r2)) =
      ([a, b, c], [a2, b2, c2]) :: (chunk3 r).zip (chunk3 r2) := rfl

/-- The central chunk decomposition: over valid symbol strings, the cells read
from the packed tables are exactly the raw distances of the successive
chunks. -/
theorem cellListZ_pack3 (A : ℕ) (raw : List ℕ → List ℕ → ℕ → ℕ)
    (hsym : ∀ u v c, raw u v c = raw v u c) (hfit : ∀ u v c, raw u v c ≤ 127) :
    ∀ (x y : List ℕ), x.length = y.length →
      (∀ a ∈ x, a < A) → (∀ b ∈ y, b < A) →
      cellListZ (cacheTable A 1 raw) (cacheTable A 2 raw) (cacheTable A 3 raw)
          (pack3 A x) (pack3 A y) x.length =
        ((chunk3 x).zip (chunk3 y)).map
          (fun p => ((raw p.1 p.2 p.1.length : ℕ) : ℤ)) := by
  intro x
  induction x using chunk3.induct with
  | case1 =>
    intro y hlen _ _
    have : y = [] := by
      cases y with
      | nil => rfl
      | cons b ys => simp at hlen
    subst this
    rfl
  | case2 a =>
    intro y hlen hx hy
    obtain ⟨b, rfl⟩ : ∃ b, y = [b] := by
      cases y with
      | nil => simp at hlen
      | cons b ys =>
        cases ys with
        | nil => exact ⟨b, rfl⟩
        | cons c zs => simp only [List.length_cons, List.length_nil] at hlen; omega
    have hcell : cacheTable A 1 raw (encodeTuple A [a]) (encodeTuple A [b]) =
        raw [a] [b] 1 :=
      cacheTable_encode A 1 raw [a] [b] hx hy
        rfl rfl (hsym _ _ _) (hfit _ _ _) (hfit _ _ _)
    rw [pack3_one, pack3_one]
    simp only [List.length_cons, List.length_nil]
    show [cacheTable A 1 raw (encodeTuple A [a]) (encodeTuple A [b])] = _
    rw [hcell]
    rfl
  | case3 a b =>
    intro y hlen hx hy
    obtain ⟨a2, b2, rfl⟩ : ∃ a2 b2, y = [a2, b2] := by
      cases y with
      | nil => simp at hlen
      | cons a2 ys =>
        cases ys with
        | nil => simp only [List.length_cons, List.length_nil] at hlen; omega
        | cons b2 zs =>
          cases zs with
          | nil => exact ⟨a2, b2, rfl⟩
          | cons c2 ws => simp only [List.length_cons, List.length_nil] at hlen; omega
    have hcell : cacheTable A 2 raw (encodeTuple A [a, b]) (encodeTuple A [a2, b2]) =
        raw [a, b] [a2, b2] 2 :=
      cacheTable_encode A 2 raw [a, b] [a2, b2] hx hy
        rfl rfl (hsym _ _ _) (hfit _ _ _) (hfit _ _ _)
    rw [pack3_two, pack3_two]
    simp only [List.length_cons, List.length_nil]
    show [cacheTable A 2 raw (encodeTuple A [a, b]) (encodeTuple A [a2, b2])] = _
    rw [hcell]
    rfl
  | case4 a b c rest ih =>
    intro y hlen hx hy
    obtain ⟨a2, b2, c2, rest2, rfl⟩ : ∃ a2 b2 c2 rest2, y = a2 :: b2 :: c2 :: rest2 := by
      cases y with
      | nil => simp at hlen
      | cons a2 ys =>
        cases ys with
        | nil => simp only [List.length_cons, List.length_nil] at hlen; omega
        | cons b2 zs =>
          cases zs with
          | nil => simp only [List.length_cons, List.length_nil] at hlen; omega
          | cons c2 ws => exact ⟨a2, b2, c2, ws, rfl⟩
    have hlen2 : rest.length = rest2.length := by
      simp only [List.length_cons] at hlen
      omega
    have hx3 : ∀ d ∈ [a, b, c], d < A := by
      intro d hd
      apply hx
      simp only [List.mem_cons, List.not_mem_nil, or_false] at hd
      simp only [List.mem_cons]
      tauto
    have hy3 : ∀ d ∈ [a2, b2, c2], d < A := by
      intro d hd
      apply hy
      simp only [List.mem_cons, List.not_mem_nil, or_false] at hd
      simp only [List.mem_cons]
      tauto
    have hcell : cacheTable A 3 raw (encodeTuple A [a, b, c])
        (encodeTuple A [a2, b2, c2]) = raw [a, b, c] [a2, b2, c2] 3 :=
      cacheTable_encode A 3 raw [a, b, c] [a2, b2, c2] hx3 hy3 rfl rfl
        (hsym _ _ _) (hfit _ _ _) (hfit _ _ _)
    have ihr := ih rest2 hlen2
      (fun d hd => hx d (by simp [hd]))
      (fun d hd => hy d (by simp [hd]))
    have hk : (a :: b :: c :: rest).length = rest.length + 3 := by
      simp only [List.length_cons]
    rw [hk, pack3_cons3, pack3_cons3, cellListZ_cons, hcell, ihr, zip_chunk3_cons3,
      List.map_cons]
    rfl

/-- **C5 counterexample.** The constant raw tuple distance 127 is symmetric
and every chunk distance fits `int8_t` (the claim's proviso holds), yet for a
pair of identical 1551-symbol strings over the one-symbol alphabet the plain
sum of the raw chunk distances is 517 · 127 = 65659 while `GetDistance`,
accumulating in the `uint16_t` `Distance` type, returns 65659 mod 2^16 = 123:
the claimed equality with the naive unbounded sum fails for inputs whose total
exceeds the `Distance` range, even though each cell fits the cell type. -/
theorem c5_counterexample :
    (∀ u v c, rawMax u v c = rawMax v u c) ∧
    (∀ u v c, rawMax u v c ≤ 127) ∧
    specNaiveSum rawMax (List.replicate 1551 0) (List.replicate 1551 0) = 65659 ∧
    getDistance3 (cacheTable 1 1 rawMax) (cacheTable 1 2 rawMax) (cacheTable 1 3 rawMax)
        (pack3 1 (List.replicate 1551 0)) (pack3 1 (List.replicate 1551 0)) 1551 = 123 := by
  refine ⟨fun _ _ _ => rfl, fun _ _ _ => Nat.le_refl _, ?_, ?_⟩
  · set_option maxRecDepth 10000 in decide
  · set_option maxRecDepth 10000 in decide

/-- **C5.** For every pair of equal-length symbol strings over the alphabet,
packed at 3 characters per word, `KmerDistanceCache3::GetDistance` computed
from the precomputed tables equals the naive recomputation that applies the
raw symbol-tuple distance function to the successive chunks of the strings
(⌊k/3⌋ chunks of length 3, plus one remainder chunk of length `k mod 3` when
nonzero) and accumulates in the same `Distance` (`uint16_t`) type; when the
plain chunk-distance sum fits a `Distance`, it equals that plain sum.
Provisos: the raw distance function is symmetric (as the table construction
assumes when it fills both `[i][j]` and `[j][i]` from one evaluation) and
every raw chunk distance fits the `int8_t` cell type. -/
theorem c5_distance_additivity (A : ℕ) (raw : List ℕ → List ℕ → ℕ → ℕ)
    (x y : List ℕ) (k : ℕ) (hkx : x.length = k) (hky : y.length = k)
    (hk1 : 1 ≤ k) (hx : ∀ a ∈ x, a < A) (hy : ∀ b ∈ y, b < A)
    (hsym : ∀ u v c, raw u v c = raw v u c) (hfit : ∀ u v c, raw u v c ≤ 127) :
    getDistance3 (cacheTable A 1 raw) (cacheTable A 2 raw) (cacheTable A 3 raw)
        (pack3 A x) (pack3 A y) k = specNaiveDistance raw x y ∧
    (specNaiveSum raw x y < 65536 →
      getDistance3 (cacheTable A 1 raw) (cacheTable A 2 raw) (cacheTable A 3 raw)
        (pack3 A x) (pack3 A y) k = specNaiveSum raw x y) := by
  have hcells := cellListZ_pack3 A raw hsym hfit x y (by omega) hx hy
  have hmain : getDistance3 (cacheTable A 1 raw) (cacheTable A 2 raw)
      (cacheTable A 3 raw) (pack3 A x) (pack3 A y) k = specNaiveDistance raw x y := by
    rw [getDistance3_eq_u16_cellListZ, specNaiveDistance_eq_u16, ← hkx, hcells]
  refine ⟨hmain, ?_⟩
  intro hsmall
  rw [hmain, specNaiveDistance_eq_u16, listSumCast]
  unfold specNaiveSum at hsmall ⊢
  unfold u16
  omega

/-- A symmetric bounded raw distance for the C5 witness: 0 on equal chunks,
1 otherwise (an ungapped-mismatch-style distance). -/
def rawNe : List ℕ → List ℕ → ℕ → ℕ := fun u v _ => if u = v then 0 else 1

/-- **C5 witness.** The additivity applied to the concrete strings
`[0,1,0,1]` and `[0,1,1,1]` over the 2-symbol alphabet: one differing
3-chunk plus one equal remainder chunk gives distance 1. -/
theorem c5_distance_additivity_witness :
    getDistance3 (cacheTable 2 1 rawNe) (cacheTable 2 2 rawNe) (cacheTable 2 3 rawNe)
        (pack3 2 [0, 1, 0, 1]) (pack3 2 [0, 1, 1, 1]) 4 =
      specNaiveSum rawNe [0, 1, 0, 1] [0, 1, 1, 1] ∧
    specNaiveSum rawNe [0, 1, 0, 1] [0, 1, 1, 1] = 1 := by
  have hsym : ∀ u v c, rawNe u v c = rawNe v u c := by
    intro u v c
    unfold rawNe
    by_cases h : u = v
    · subst h; rfl
    · rw [if_neg h, if_neg (fun h2 => h h2.symm)]
  have hfit : ∀ u v c, rawNe u v c ≤ 127 := by
    intro u v c
    unfold rawNe
    split <;> omega
  refine ⟨?_, by decide⟩
  exact (c5_distance_additivity 2 rawNe [0, 1, 0, 1] [0, 1, 1, 1] 4
    (by decide) (by decide) (by decide)
    (by decide) (by decide) hsym hfit).2 (by decide)

/-! ## Structural lemmas on the clustering engine (shared by C1, C3, C8) -/

theorem listSwap_length (l : List KRec) (i j : ℕ) :
    (listSwap l i j).length = l.length := by
  simp [listSwap]

theorem addMember_length (cs : List GCluster) (j : ℕ) (m : KRec) :
    (addMember cs j m).length = cs.length := by
  simp [addMember]

theorem scanStepG_kmers_length (cfg : RunCfg) (fci : ℕ) (st : GState) (i : ℕ) :
    (scanStepG cfg fci st i).kmers.length = st.kmers.length := by
  rcases h : findAttractor cfg.d cfg.T st.clusters (st.kmers.getD i default).enc fci
    with _ | ⟨j, dj⟩
  · simp only [scanStepG, h]
  · simp only [scanStepG, h]
    split
    · simp [listSwap]
    · simp

theorem scanStepG_firstUnalloc (cfg : RunCfg) (fci : ℕ) (st : GState) (i : ℕ) :
    st.firstUnalloc ≤ (scanStepG cfg fci st i).firstUnalloc ∧
    (scanStepG cfg fci st i).firstUnalloc ≤ st.firstUnalloc + 1 := by
  rcases h : findAttractor cfg.d cfg.T st.clusters (st.kmers.getD i default).enc fci
    with _ | ⟨j, dj⟩ <;> simp only [scanStepG, h] <;> omega

theorem foldl_scanStepG_bounds (cfg : RunCfg) (fci : ℕ) :
    ∀ (l : List ℕ) (st : GState),
      st.firstUnalloc ≤ (l.foldl (scanStepG cfg fci) st).firstUnalloc ∧
      (l.foldl (scanStepG cfg fci) st).firstUnalloc ≤ st.firstUnalloc + l.length ∧
      (l.foldl (scanStepG cfg fci) st).kmers.length = st.kmers.length := by
  intro l
  induction l with
  | nil => intro st; simp
  | cons i l ih =>
    intro st
    have h1 := scanStepG_firstUnalloc cfg fci st i
    have h2 := scanStepG_kmers_length cfg fci st i
    have h3 := ih (scanStepG cfg fci st i)
    simp only [List.foldl_cons, List.length_cons]
    exact ⟨by omega, by omega, by omega⟩

theorem seedPhaseG_parts (cfg : RunCfg) (r : ℕ) (st : GState) :
    (seedPhaseG cfg r st).kmers = st.kmers ∧
    (seedPhaseG cfg r st).firstUnalloc = st.firstUnalloc := by
  unfold seedPhaseG
  split <;> exact ⟨rfl, rfl⟩

/-- One global incremental pass: the high-water mark never decreases, the
array length is preserved, and the mark stays within
`max firstUnalloc (number of k-mers)`. -/
theorem passG_one_pass (cfg : RunCfg) (r fci : ℕ) (st st2 : GState)
    (h : doIncrementalClusteringParallel cfg r fci st = .ok st2) :
    st.firstUnalloc ≤ st2.firstUnalloc ∧
    st2.kmers.length = st.kmers.length ∧
    st2.firstUnalloc ≤ max st.firstUnalloc st.kmers.length := by
  unfold doIncrementalClusteringParallel at h
  split at h
  · exact Except.noConfusion h
  · injection h with h2
    subst h2
    have hs := seedPhaseG_parts cfg r st
    have hb := foldl_scanStepG_bounds cfg fci
      (List.range' (seedPhaseG cfg r st).firstUnalloc
        ((seedPhaseG cfg r st).kmers.length - (seedPhaseG cfg r st).firstUnalloc))
      (seedPhaseG cfg r st)
    rw [List.length_range'] at hb
    rw [hs.1, hs.2] at hb
    unfold scanPhaseG
    rw [hs.1, hs.2]
    exact ⟨by omega, by omega, by omega⟩

theorem passLoopGAux_stable (cfg : RunCfg) (N : ℕ) :
    ∀ (fuel fci inc : ℕ) (st : GState), N - st.firstUnalloc < fuel →
      passLoopGAux cfg N (fuel + 1) fci inc st = passLoopGAux cfg N fuel fci inc st := by
  intro fuel
  induction fuel with
  | zero => intro fci inc st h; omega
  | succ fuel ih =>
    intro fci inc st h
    by_cases hc : st.firstUnalloc < N
    · show passLoopGAux cfg N (fuel + 1 + 1) fci inc st = _
      rw [passLoopGAux, passLoopGAux, if_pos hc, if_pos hc]
      rcases hp : doIncrementalClusteringParallel cfg inc fci st with e | st2
      · rfl
      · show (if st2.firstUnalloc = st.firstUnalloc then Except.ok st2
            else passLoopGAux cfg N (fuel + 1) st2.clusters.length cfg.clusterIncrement st2) =
          (if st2.firstUnalloc = st.firstUnalloc then Except.ok st2
            else passLoopGAux cfg N fuel st2.clusters.length cfg.clusterIncrement st2)
        by_cases he : st2.firstUnalloc = st.firstUnalloc
        · rw [if_pos he, if_pos he]
        · rw [if_neg he, if_neg he]
          have hm := passG_one_pass cfg inc fci st st2 hp
          exact ih st2.clusters.length cfg.clusterIncrement st2 (by omega)
    · show passLoopGAux cfg N (fuel + 1 + 1) fci inc st = _
      rw [passLoopGAux, passLoopGAux, if_neg hc, if_neg hc]

theorem passLoopGAux_fuel (cfg : RunCfg) (N : ℕ) :
    ∀ (m fuel fci inc : ℕ) (st : GState), N - st.firstUnalloc < fuel →
      passLoopGAux cfg N (fuel + m) fci inc st = passLoopGAux cfg N fuel fci inc st := by
  intro m
  induction m with
  | zero => intro fuel fci inc st _; rfl
  | succ m ih =>
    intro fuel fci inc st h
    have h1 : fuel + (m + 1) = (fuel + m) + 1 := by omega
    rw [h1, passLoopGAux_stable cfg N (fuel + m) fci inc st (by omega),
      ih fuel fci inc st h]

theorem passLoopGAux_exit (cfg : RunCfg) (N : ℕ) :
    ∀ (fuel fci inc : ℕ) (st st' : GState), N - st.firstUnalloc < fuel →
      passLoopGAux cfg N fuel fci inc st = .ok st' →
      N ≤ st'.firstUnalloc ∨
      ∃ stPrev r' fci', doIncrementalClusteringParallel cfg r' fci' stPrev = .ok st' ∧
        st'.firstUnalloc = stPrev.firstUnalloc := by
  intro fuel
  induction fuel with
  | zero => intro fci inc st st' h _; omega
  | succ fuel ih =>
    intro fci inc st st' h hrun
    rw [passLoopGAux] at hrun
    by_cases hc : st.firstUnalloc < N
    · rw [if_pos hc] at hrun
      rcases hp : doIncrementalClusteringParallel cfg inc fci st with e | st2 <;>
        rw [hp] at hrun
      · exact Except.noConfusion
          (show (Except.error e : Except String GState) = Except.ok st' from hrun)
      · have hrun2 : (if st2.firstUnalloc = st.firstUnalloc then Except.ok st2
            else passLoopGAux cfg N fuel st2.clusters.length cfg.clusterIncrement st2) =
            Except.ok st' := hrun
        by_cases he : st2.firstUnalloc = st.firstUnalloc
        · rw [if_pos he] at hrun2
          injection hrun2 with h2
          subst h2
          exact Or.inr ⟨st, inc, fci, hp, he⟩
        · rw [if_neg he] at hrun2
          have hm := passG_one_pass cfg inc fci st st2 hp
          exact ih st2.clusters.length cfg.clusterIncrement st2 st' (by omega) hrun2
    · rw [if_neg hc] at hrun
      injection hrun with h2
      subst h2
      exact Or.inl (by omega)

theorem scanStepB_kmers_length (cfg : RunCfg) (fci t : ℕ) (st : BState) (i : ℕ) :
    (scanStepB cfg fci t st i).kmers.length = st.kmers.length := by
  rcases h : findAttractor cfg.d cfg.T st.clusters (st.kmers.getD i default).enc fci
    with _ | ⟨j, dj⟩
  · simp only [scanStepB, h]
  · simp only [scanStepB, h]
    split
    · simp [listSwap]
    · simp

theorem getD_set_le (l : List ℕ) (t v s : ℕ) (hv : l.getD t 0 ≤ v) :
    l.getD s 0 ≤ (l.set t v).getD s 0 := by
  simp only [List.getD_eq_getElem?_getD] at hv ⊢
  by_cases hs : t = s
  · subst hs
    by_cases hlt : t < l.length
    · rw [List.getElem?_set_self hlt]
      simpa using hv
    · rw [List.set_eq_of_length_le (by omega)]
  · rw [List.getElem?_set_ne hs]

theorem getD_set_ub (l : List ℕ) (t v s : ℕ) (bound : ℕ → ℕ)
    (hb : ∀ u, l.getD u 0 ≤ bound u) (hv : v ≤ bound t) :
    (l.set t v).getD s 0 ≤ bound s := by
  have hbs := hb s
  simp only [List.getD_eq_getElem?_getD] at hbs ⊢
  by_cases hs : t = s
  · subst hs
    by_cases hlt : t < l.length
    · rw [List.getElem?_set_self hlt]
      simpa using hv
    · rw [List.set_eq_of_length_le (by omega)]
      exact hbs
  · rw [List.getElem?_set_ne hs]
    exact hbs

theorem scanStepB_firstUnalloc_getD (cfg : RunCfg) (fci t : ℕ) (st : BState) (i : ℕ)
    (s : ℕ) :
    st.firstUnalloc.getD s 0 ≤ (scanStepB cfg fci t st i).firstUnalloc.getD s 0 := by
  rcases h : findAttractor cfg.d cfg.T st.clusters (st.kmers.getD i default).enc fci
    with _ | ⟨j, dj⟩
  · simp only [scanStepB, h]
    exact le_refl _
  · simp only [scanStepB, h]
    by_cases hf : st.firstUnalloc.getD t 0 < i
    · rw [if_pos hf]
      exact getD_set_le _ _ _ _ (by omega)
    · rw [if_neg hf]

theorem scanStepB_band (cfg : RunCfg) (fci t : ℕ) (st : BState) (i : ℕ)
    (bound : ℕ → ℕ) (hb : ∀ u, st.firstUnalloc.getD u 0 ≤ bound u)
    (hi : i + 1 ≤ bound t) :
    ∀ u, (scanStepB cfg fci t st i).firstUnalloc.getD u 0 ≤ bound u := by
  intro u
  rcases h : findAttractor cfg.d cfg.T st.clusters (st.kmers.getD i default).enc fci
    with _ | ⟨j, dj⟩
  · simp only [scanStepB, h]
    exact hb u
  · simp only [scanStepB, h]
    by_cases hf : st.firstUnalloc.getD t 0 < i
    · rw [if_pos hf]
      exact getD_set_ub _ _ _ _ bound hb (by omega)
    · rw [if_neg hf]
      exact hb u

theorem foldl_scanStepB_mono (cfg : RunCfg) (fci t : ℕ) :
    ∀ (l : List ℕ) (st : BState),
      (∀ s, st.firstUnalloc.getD s 0 ≤
        ((l.foldl (scanStepB cfg fci t) st).firstUnalloc.getD s 0)) ∧
      (l.foldl (scanStepB cfg fci t) st).kmers.length = st.kmers.length := by
  intro l
  induction l with
  | nil => intro st; exact ⟨fun s => le_refl _, rfl⟩
  | cons i l ih =>
    intro st
    have h2 := scanStepB_kmers_length cfg fci t st i
    have h3 := ih (scanStepB cfg fci t st i)
    simp only [List.foldl_cons]
    exact ⟨fun s => le_trans (scanStepB_firstUnalloc_getD cfg fci t st i s) (h3.1 s),
      h3.2.trans h2⟩

theorem foldl_scanStepB_band (cfg : RunCfg) (fci t : ℕ) (bound : ℕ → ℕ) :
    ∀ (l : List ℕ) (st : BState), (∀ i ∈ l, i + 1 ≤ bound t) →
      (∀ u, st.firstUnalloc.getD u 0 ≤ bound u) →
      ∀ u, ((l.foldl (scanStepB cfg fci t) st).firstUnalloc.getD u 0 ≤ bound u) := by
  intro l
  induction l with
  | nil => intro st _ hb u; exact hb u
  | cons i l ih =>
    intro st hl hb u
    simp only [List.foldl_cons]
    exact ih (scanStepB cfg fci t st i) (fun i' hi' => hl i' (by simp [hi']))
      (scanStepB_band cfg fci t st i bound hb (hl i (by simp))) u

theorem foldl_threadB_mono (cfg : RunCfg) (numThreads fci : ℕ) :
    ∀ (ts : List ℕ) (st : BState),
      (∀ s, st.firstUnalloc.getD s 0 ≤
        ((ts.foldl (fun st t =>
          (List.range' (st.firstUnalloc.getD t 0)
            ((t + 1) * st.kmers.length / numThreads - st.firstUnalloc.getD t 0)).foldl
            (scanStepB cfg fci t) st) st).firstUnalloc.getD s 0)) ∧
      ((ts.foldl (fun st t =>
          (List.range' (st.firstUnalloc.getD t 0)
            ((t + 1) * st.kmers.length / numThreads - st.firstUnalloc.getD t 0)).foldl
            (scanStepB cfg fci t) st) st).kmers.length = st.kmers.length) := by
  intro ts
  induction ts with
  | nil => intro st; exact ⟨fun s => le_refl _, rfl⟩
  | cons t ts ih =>
    intro st
    have h1 := foldl_scanStepB_mono cfg fci t
      (List.range' (st.firstUnalloc.getD t 0)
        ((t + 1) * st.kmers.length / numThreads - st.firstUnalloc.getD t 0)) st
    have h3 := ih ((List.range' (st.firstUnalloc.getD t 0)
      ((t + 1) * st.kmers.length / numThreads - st.firstUnalloc.getD t 0)).foldl
      (scanStepB cfg fci t) st)
    simp only [List.foldl_cons]
    exact ⟨fun s => le_trans (h1.1 s) (h3.1 s), h3.2.trans h1.2⟩

theorem scanPhaseB_mono (cfg : RunCfg) (numThreads fci : ℕ) (st : BState) :
    (∀ s, st.firstUnalloc.getD s 0 ≤
      (scanPhaseB cfg numThreads fci st).firstUnalloc.getD s 0) ∧
    (scanPhaseB cfg numThreads fci st).kmers.length = st.kmers.length :=
  foldl_threadB_mono cfg numThreads fci (List.range numThreads) st

theorem foldl_threadB_band (cfg : RunCfg) (numThreads fci N : ℕ) :
    ∀ (ts : List ℕ) (st : BState), st.kmers.length = N →
      (∀ u, st.firstUnalloc.getD u 0 ≤ (u + 1) * N / numThreads) →
      (∀ u, ((ts.foldl (fun st t =>
          (List.range' (st.firstUnalloc.getD t 0)
            ((t + 1) * st.kmers.length / numThreads - st.firstUnalloc.getD t 0)).foldl
            (scanStepB cfg fci t) st) st).firstUnalloc.getD u 0 ≤
          (u + 1) * N / numThreads)) ∧
      ((ts.foldl (fun st t =>
          (List.range' (st.firstUnalloc.getD t 0)
            ((t + 1) * st.kmers.length / numThreads - st.firstUnalloc.getD t 0)).foldl
            (scanStepB cfg fci t) st) st).kmers.length = N) := by
  intro ts
  induction ts with
  | nil => intro st hlen hb; exact ⟨hb, hlen⟩
  | cons t ts ih =>
    intro st hlen hb
    have hmem : ∀ i ∈ List.range' (st.firstUnalloc.getD t 0)
        ((t + 1) * st.kmers.length / numThreads - st.firstUnalloc.getD t 0),
        i + 1 ≤ (t + 1) * N / numThreads := by
      intro i hi
      rw [List.mem_range'] at hi
      obtain ⟨o, ho, rfl⟩ := hi
      rw [hlen] at ho
      omega
    have h1 := foldl_scanStepB_band cfg fci t (fun u => (u + 1) * N / numThreads)
      (List.range' (st.firstUnalloc.getD t 0)
        ((t + 1) * st.kmers.length / numThreads - st.firstUnalloc.getD t 0)) st hmem hb
    have h2 := (foldl_scanStepB_mono cfg fci t
      (List.range' (st.firstUnalloc.getD t 0)
        ((t + 1) * st.kmers.length / numThreads - st.firstUnalloc.getD t 0)) st).2
    have h3 := ih ((List.range' (st.firstUnalloc.getD t 0)
      ((t + 1) * st.kmers.length / numThreads - st.firstUnalloc.getD t 0)).foldl
      (scanStepB cfg fci t) st) (h2.trans hlen) h1
    simp only [List.foldl_cons]
    exact h3

theorem scanPhaseB_band (cfg : RunCfg) (numThreads fci N : ℕ) (st : BState)
    (hlen : st.kmers.length = N)
    (hb : ∀ u, st.firstUnalloc.getD u 0 ≤ (u + 1) * N / numThreads) :
    (∀ u, (scanPhaseB cfg numThreads fci st).firstUnalloc.getD u 0 ≤
      (u + 1) * N / numThreads) ∧
    (scanPhaseB cfg numThreads fci st).kmers.length = N :=
  foldl_threadB_band cfg numThreads fci N (List.range numThreads) st hlen hb

theorem foldl_clustersOnly (F : BState → ℕ → List GCluster) :
    ∀ (l : List ℕ) (st : BState),
      (l.foldl (fun st t => { st with clusters := F st t }) st).kmers = st.kmers ∧
      (l.foldl (fun st t => { st with clusters := F st t }) st).firstUnalloc =
        st.firstUnalloc := by
  intro l
  induction l with
  | nil => intro st; exact ⟨rfl, rfl⟩
  | cons t l ih =>
    intro st
    simp only [List.foldl_cons]
    exact ih _

theorem seedPhaseB_parts (cfg : RunCfg) (numThreads r : ℕ) (st : BState) :
    (seedPhaseB cfg numThreads r st).kmers = st.kmers ∧
    (seedPhaseB cfg numThreads r st).firstUnalloc = st.firstUnalloc := by
  unfold seedPhaseB
  split
  · exact ⟨rfl, rfl⟩
  · exact foldl_clustersOnly _ (List.range numThreads) st

theorem foldl_add_le_foldl_add (g h : ℕ → ℕ) :
    ∀ (l : List ℕ) (a b : ℕ), a ≤ b → (∀ t ∈ l, g t ≤ h t) →
      l.foldl (fun acc t => acc + g t) a ≤ l.foldl (fun acc t => acc + h t) b := by
  intro l
  induction l with
  | nil => intro a b hab _; exact hab
  | cons t l ih =>
    intro a b hab hpt
    simp only [List.foldl_cons]
    exact ih _ _ (by have := hpt t (by simp); omega) (fun u hu => hpt u (by simp [hu]))

theorem getUnallocated_mono (numThreads N : ℕ) (l1 l2 : List ℕ)
    (h : ∀ s, l1.getD s 0 ≤ l2.getD s 0) :
    getUnallocated numThreads N l1 ≤ getUnallocated numThreads N l2 := by
  unfold getUnallocated
  exact foldl_add_le_foldl_add (fun t => l1.getD t 0 - t * N / numThreads)
    (fun t => l2.getD t 0 - t * N / numThreads) (List.range numThreads) 0 0 (le_refl 0)
    (fun t _ => by
      show l1.getD t 0 - t * N / numThreads ≤ l2.getD t 0 - t * N / numThreads
      have := h t
      omega)

theorem foldl_band_partial (numThreads N : ℕ) (l : List ℕ)
    (h : ∀ t, l.getD t 0 ≤ (t + 1) * N / numThreads) :
    ∀ n, (List.range n).foldl
      (fun acc t => acc + (l.getD t 0 - t * N / numThreads)) 0 ≤ n * N / numThreads := by
  intro n
  induction n with
  | zero => simp
  | succ n ih =>
    rw [List.range_succ, List.foldl_append]
    simp only [List.foldl_cons, List.foldl_nil]
    have h1 := h n
    have h2 : n * N / numThreads ≤ (n + 1) * N / numThreads :=
      Nat.div_le_div_right (Nat.mul_le_mul_right N (by omega))
    omega

theorem getUnallocated_le (numThreads N : ℕ) (l : List ℕ)
    (h : ∀ t, l.getD t 0 ≤ (t + 1) * N / numThreads) :
    getUnallocated numThreads N l ≤ N := by
  unfold getUnallocated
  rcases Nat.eq_zero_or_pos numThreads with h0 | h0
  · subst h0
    simp
  · have h1 := foldl_band_partial numThreads N l h numThreads
    have h2 : numThreads * N / numThreads = N := Nat.mul_div_cancel_left N h0
    omega

/-- One banded incremental pass: the per-thread high-water marks never
decrease pointwise (hence neither does `GetUnallocated`), the array length is
preserved, and when the marks respect the band ends on entry they still do on
exit, keeping the allocated count at most the number of k-mers. -/
theorem passB_one_pass (cfg : RunCfg) (numThreads r fci : ℕ) (st st2 : BState)
    (h : doIncrementalClusteringParallelBanded cfg numThreads r fci st = .ok st2) :
    (∀ s, st.firstUnalloc.getD s 0 ≤ st2.firstUnalloc.getD s 0) ∧
    st2.kmers.length = st.kmers.length ∧
    ((∀ u, st.firstUnalloc.getD u 0 ≤ (u + 1) * st.kmers.length / numThreads) →
      (∀ u, st2.firstUnalloc.getD u 0 ≤ (u + 1) * st.kmers.length / numThreads) ∧
      getUnallocated numThreads st.kmers.length st2.firstUnalloc ≤ st.kmers.length) := by
  unfold doIncrementalClusteringParallelBanded at h
  split at h
  · exact Except.noConfusion h
  · injection h with h2
    subst h2
    have hs := seedPhaseB_parts cfg numThreads r st
    have hm := scanPhaseB_mono cfg numThreads fci (seedPhaseB cfg numThreads r st)
    rw [hs.1, hs.2] at hm
    refine ⟨hm.1, hm.2, ?_⟩
    intro hb
    have hbd := scanPhaseB_band cfg numThreads fci st.kmers.length
      (seedPhaseB cfg numThreads r st) (by rw [hs.1]) (by rw [hs.2]; exact hb)
    exact ⟨hbd.1, getUnallocated_le numThreads st.kmers.length _ hbd.1⟩

theorem passLoopBAux_stable (cfg : RunCfg) (numThreads N : ℕ) :
    ∀ (fuel fci inc : ℕ) (st : BState),
      N - getUnallocated numThreads N st.firstUnalloc < fuel →
      passLoopBAux cfg numThreads N (fuel + 1) fci inc st =
        passLoopBAux cfg numThreads N fuel fci inc st := by
  intro fuel
  induction fuel with
  | zero => intro fci inc st h; omega
  | succ fuel ih =>
    intro fci inc st h
    by_cases hc : getUnallocated numThreads N st.firstUnalloc < N
    · show passLoopBAux cfg numThreads N (fuel + 1 + 1) fci inc st = _
      rw [passLoopBAux, passLoopBAux, if_pos hc, if_pos hc]
      rcases hp : doIncrementalClusteringParallelBanded cfg numThreads inc fci st
        with e | st2
      · rfl
      · show (if getUnallocated numThreads N st2.firstUnalloc =
              getUnallocated numThreads N st.firstUnalloc then Except.ok st2
            else passLoopBAux cfg numThreads N (fuel + 1) st2.clusters.length
              cfg.clusterIncrement st2) =
          (if getUnallocated numThreads N st2.firstUnalloc =
              getUnallocated numThreads N st.firstUnalloc then Except.ok st2
            else passLoopBAux cfg numThreads N fuel st2.clusters.length
              cfg.clusterIncrement st2)
        by_cases he : getUnallocated numThreads N st2.firstUnalloc =
            getUnallocated numThreads N st.firstUnalloc
        · rw [if_pos he, if_pos he]
        · rw [if_neg he, if_neg he]
          have hm := getUnallocated_mono numThreads N st.firstUnalloc st2.firstUnalloc
            (passB_one_pass cfg numThreads inc fci st st2 hp).1
          exact ih st2.clusters.length cfg.clusterIncrement st2 (by omega)
    · show passLoopBAux cfg numThreads N (fuel + 1 + 1) fci inc st = _
      rw [passLoopBAux, passLoopBAux, if_neg hc, if_neg hc]

theorem passLoopBAux_fuel (cfg : RunCfg) (numThreads N : ℕ) :
    ∀ (m fuel fci inc : ℕ) (st : BState),
      N - getUnallocated numThreads N st.firstUnalloc < fuel →
      passLoopBAux cfg numThreads N (fuel + m) fci inc st =
        passLoopBAux cfg numThreads N fuel fci inc st := by
  intro m
  induction m with
  | zero => intro fuel fci inc st _; rfl
  | succ m ih =>
    intro fuel fci inc st h
    have h1 : fuel + (m + 1) = (fuel + m) + 1 := by omega
    rw [h1, passLoopBAux_stable cfg numThreads N (fuel + m) fci inc st (by omega),
      ih fuel fci inc st h]

theorem passLoopBAux_exit (cfg : RunCfg) (numThreads N : ℕ) :
    ∀ (fuel fci inc : ℕ) (st st' : BState),
      N - getUnallocated numThreads N st.firstUnalloc < fuel →
      passLoopBAux cfg numThreads N fuel fci inc st = .ok st' →
      N ≤ getUnallocated numThreads N st'.firstUnalloc ∨
      ∃ stPrev r' fci',
        doIncrementalClusteringParallelBanded cfg numThreads r' fci' stPrev = .ok st' ∧
        getUnallocated numThreads N st'.firstUnalloc =
          getUnallocated numThreads N stPrev.firstUnalloc := by
  intro fuel
  induction fuel with
  | zero => intro fci inc st st' h _; omega
  | succ fuel ih =>
    intro fci inc st st' h hrun
    rw [passLoopBAux] at hrun
    by_cases hc : getUnallocated numThreads N st.firstUnalloc < N
    · rw [if_pos hc] at hrun
      rcases hp : doIncrementalClusteringParallelBanded cfg numThreads inc fci st
        with e | st2 <;> rw [hp] at hrun
      · exact Except.noConfusion
          (show (Except.error e : Except String BState) = Except.ok st' from hrun)
      · have hrun2 : (if getUnallocated numThreads N st2.firstUnalloc =
              getUnallocated numThreads N st.firstUnalloc then Except.ok st2
            else passLoopBAux cfg numThreads N fuel st2.clusters.length
              cfg.clusterIncrement st2) = Except.ok st' := hrun
        by_cases he : getUnallocated numThreads N st2.firstUnalloc =
            getUnallocated numThreads N st.firstUnalloc
        · rw [if_pos he] at hrun2
          injection hrun2 with h2
          subst h2
          exact Or.inr ⟨st, inc, fci, hp, he⟩
        · rw [if_neg he] at hrun2
          have hm := getUnallocated_mono numThreads N st.firstUnalloc st2.firstUnalloc
            (passB_one_pass cfg numThreads inc fci st st2 hp).1
          exact ih st2.clusters.length cfg.clusterIncrement st2 st' (by omega) hrun2
    · rw [if_neg hc] at hrun
      injection hrun with h2
      subst h2
      exact Or.inl (by omega)

/-- **C8.** The pass loop of `DoExhaustiveIncrementalClustering` terminates on
every finite input, in both scheduling variants.  (1) One global pass never
decreases `firstUnallocIndex`, preserves the number of k-mers, and keeps the
mark bounded by the number of k-mers; (2) one banded pass never decreases the
per-thread allocated sum `GetUnallocated` and, when the per-thread marks
respect their band ends, keeps that sum bounded by the number of k-mers;
(3, 4) the loop needs at most `N + 1` iterations: giving the fuel-indexed
loop body any budget beyond `N + 1` changes nothing, so the `while` loop
terminates within `N + 1` passes; (5, 6) a loop that returns does so in a
non-error state in which either every k-mer is allocated (`N ≤` the allocated
count) or the final pass allocated zero additional k-mers — the zero-progress
exit is a normal `.ok` return, not an error. -/
theorem c8_pass_loop_termination :
    (∀ (cfg : RunCfg) (r fci : ℕ) (st st2 : GState),
      doIncrementalClusteringParallel cfg r fci st = .ok st2 →
      st.firstUnalloc ≤ st2.firstUnalloc ∧
      st2.kmers.length = st.kmers.length ∧
      (st.firstUnalloc ≤ st.kmers.length → st2.firstUnalloc ≤ st.kmers.length)) ∧
    (∀ (cfg : RunCfg) (numThreads r fci N : ℕ) (st st2 : BState),
      doIncrementalClusteringParallelBanded cfg numThreads r fci st = .ok st2 →
      getUnallocated numThreads N st.firstUnalloc ≤
        getUnallocated numThreads N st2.firstUnalloc ∧
      st2.kmers.length = st.kmers.length ∧
      ((∀ u, st.firstUnalloc.getD u 0 ≤ (u + 1) * st.kmers.length / numThreads) →
        getUnallocated numThreads st.kmers.length st2.firstUnalloc ≤
          st.kmers.length)) ∧
    (∀ (cfg : RunCfg) (N fci inc extra : ℕ) (st : GState),
      passLoopGAux cfg N (N + 1 + extra) fci inc st = passLoopG cfg N fci inc st) ∧
    (∀ (cfg : RunCfg) (numThreads N fci inc extra : ℕ) (st : BState),
      passLoopBAux cfg numThreads N (N + 1 + extra) fci inc st =
        passLoopB cfg numThreads N fci inc st) ∧
    (∀ (cfg : RunCfg) (N fci inc : ℕ) (st st' : GState),
      passLoopG cfg N fci inc st = .ok st' →
      N ≤ st'.firstUnalloc ∨
      ∃ stPrev r' fci', doIncrementalClusteringParallel cfg r' fci' stPrev = .ok st' ∧
        st'.firstUnalloc = stPrev.firstUnalloc) ∧
    (∀ (cfg : RunCfg) (numThreads N fci inc : ℕ) (st st' : BState),
      passLoopB cfg numThreads N fci inc st = .ok st' →
      N ≤ getUnallocated numThreads N st'.firstUnalloc ∨
      ∃ stPrev r' fci',
        doIncrementalClusteringParallelBanded cfg numThreads r' fci' stPrev = .ok st' ∧
        getUnallocated numThreads N st'.firstUnalloc =
          getUnallocated numThreads N stPrev.firstUnalloc) := by
  refine ⟨?_, ?_, ?_, ?_, ?_, ?_⟩
  · intro cfg r fci st st2 h
    have hm := passG_one_pass cfg r fci st st2 h
    exact ⟨hm.1, hm.2.1, by omega⟩
  · intro cfg numThreads r fci N st st2 h
    have hm := passB_one_pass cfg numThreads r fci st st2 h
    refine ⟨getUnallocated_mono numThreads N st.firstUnalloc st2.firstUnalloc hm.1,
      hm.2.1, ?_⟩
    intro hb
    exact (hm.2.2 hb).2
  · intro cfg N fci inc extra st
    exact passLoopGAux_fuel cfg N extra (N + 1) fci inc st (by omega)
  · intro cfg numThreads N fci inc extra st
    exact passLoopBAux_fuel cfg numThreads N extra (N + 1) fci inc st (by omega)
  · intro cfg N fci inc st st' hrun
    exact passLoopGAux_exit cfg N (N + 1) fci inc st st' (by omega) hrun
  · intro cfg numThreads N fci inc st st' hrun
    exact passLoopBAux_exit cfg numThreads N (N + 1) fci inc st st' (by omega) hrun

/-! ## The attractor search: soundness and first-fit minimality -/

/-- A hit of the attractor loop lies in the scanned window, records exactly
the distance to the winning prototype, is within the threshold, and no
earlier cluster of the window was within the threshold. -/
theorem findAttractorAux_some (d : ℕ → ℕ → ℕ) (T : ℚ) (cs : List GCluster) (enc : ℕ) :
    ∀ (n j j' dj : ℕ), findAttractorAux d T cs enc n j = some (j', dj) →
      j ≤ j' ∧ j' < j + n ∧
      dj = d enc ((cs.getD j' ⟨0, []⟩).protoEnc) ∧
      (dj : ℚ) ≤ T ∧
      ∀ u, j ≤ u → u < j' → ¬ ((d enc ((cs.getD u ⟨0, []⟩).protoEnc) : ℚ) ≤ T) := by
  intro n
  induction n with
  | zero => intro j j' dj h; exact Option.noConfusion h
  | succ n ih =>
    intro j j' dj h
    simp only [findAttractorAux] at h
    by_cases hd : ((d enc ((cs.getD j ⟨0, []⟩).protoEnc) : ℚ)) ≤ T
    · rw [if_pos hd] at h
      injection h with h2
      injection h2 with ha hb
      subst ha
      subst hb
      exact ⟨le_refl _, by omega, rfl, hd, fun u hu1 hu2 => by omega⟩
    · rw [if_neg hd] at h
      obtain ⟨h1, h2, h3, h4, h5⟩ := ih (j + 1) j' dj h
      refine ⟨by omega, by omega, h3, h4, ?_⟩
      intro u hu1 hu2
      rcases Nat.eq_or_lt_of_le hu1 with rfl | hu3
      · exact hd
      · exact h5 u (by omega) hu2

/-- A miss of the attractor loop means no cluster of the scanned window is
within the threshold. -/
theorem findAttractorAux_none (d : ℕ → ℕ → ℕ) (T : ℚ) (cs : List GCluster) (enc : ℕ) :
    ∀ (n j : ℕ), findAttractorAux d T cs enc n j = none →
      ∀ u, j ≤ u → u < j + n → ¬ ((d enc ((cs.getD u ⟨0, []⟩).protoEnc) : ℚ) ≤ T) := by
  intro n
  induction n with
  | zero => intro j _ u hu1 hu2; omega
  | succ n ih =>
    intro j h u hu1 hu2
    simp only [findAttractorAux] at h
    by_cases hd : ((d enc ((cs.getD j ⟨0, []⟩).protoEnc) : ℚ)) ≤ T
    · rw [if_pos hd] at h
      exact Option.noConfusion h
    · rw [if_neg hd] at h
      rcases Nat.eq_or_lt_of_le hu1 with rfl | hu3
      · exact hd
      · exact ih (j + 1) h u (by omega) (by omega)

/-! ## The cluster-membership invariant (claim C1) -/

theorem addMember_within (cfg : RunCfg) (cs : List GCluster) (j : ℕ) (m : KRec)
    (hok : membersWithinThreshold cfg cs)
    (hj : (cfg.d ((cs.getD j ⟨0, []⟩).protoEnc) m.enc : ℚ) ≤ cfg.T) :
    membersWithinThreshold cfg (addMember cs j m) := by
  intro c hc m' hm'
  unfold addMember at hc
  rcases List.mem_or_eq_of_mem_set hc with hc | rfl
  · exact hok c hc m' hm'
  · rcases List.mem_append.1 hm' with hm2 | hm2
    · by_cases hlen : j < cs.length
      · have hmem : cs.getD j ⟨0, []⟩ ∈ cs := by
          rw [List.getD_eq_getElem?_getD, List.getElem?_eq_getElem hlen]
          exact List.getElem_mem hlen
        exact hok _ hmem m' hm2
      · have hget : cs.getD j ⟨0, []⟩ = ⟨0, []⟩ := by
          rw [List.getD_eq_getElem?_getD, List.getElem?_eq_none (by omega)]
          rfl
        rw [hget] at hm2
        exact absurd hm2 (List.not_mem_nil m')
    · rcases List.mem_singleton.1 hm2 with rfl
      exact hj

theorem scanStepG_within (cfg : RunCfg) (hsym : ∀ a b, cfg.d a b = cfg.d b a)
    (fci : ℕ) (st : GState) (i : ℕ)
    (hok : membersWithinThreshold cfg st.clusters) :
    membersWithinThreshold cfg (scanStepG cfg fci st i).clusters := by
  rcases h : findAttractor cfg.d cfg.T st.clusters (st.kmers.getD i default).enc fci
    with _ | ⟨j, dj⟩
  · simp only [scanStepG, h]
    exact hok
  · simp only [scanStepG, h]
    refine addMember_within cfg st.clusters j _ hok ?_
    obtain ⟨_, _, hd, hT, _⟩ := findAttractorAux_some cfg.d cfg.T st.clusters
      (st.kmers.getD i default).enc (st.clusters.length - fci) fci j dj h
    show (cfg.d ((st.clusters.getD j ⟨0, []⟩).protoEnc)
      (st.kmers.getD i default).enc : ℚ) ≤ cfg.T
    rw [hsym, ← hd]
    exact hT

theorem foldl_scanStepG_within (cfg : RunCfg) (hsym : ∀ a b, cfg.d a b = cfg.d b a)
    (fci : ℕ) :
    ∀ (l : List ℕ) (st : GState), membersWithinThreshold cfg st.clusters →
      membersWithinThreshold cfg ((l.foldl (scanStepG cfg fci) st).clusters) := by
  intro l
  induction l with
  | nil => intro st hok; exact hok
  | cons i l ih =>
    intro st hok
    simp only [List.foldl_cons]
    exact ih _ (scanStepG_within cfg hsym fci st i hok)

theorem seedPhaseG_within (cfg : RunCfg) (r : ℕ) (st : GState)
    (hok : membersWithinThreshold cfg st.clusters) :
    membersWithinThreshold cfg (seedPhaseG cfg r st).clusters := by
  unfold seedPhaseG
  split
  · exact hok
  · intro c hc m hm
    rcases List.mem_append.1 hc with hc2 | hc2
    · exact hok c hc2 m hm
    · obtain ⟨i0, _, rfl⟩ := List.mem_map.1 hc2
      exact absurd hm (List.not_mem_nil m)

theorem passG_within (cfg : RunCfg) (hsym : ∀ a b, cfg.d a b = cfg.d b a)
    (r fci : ℕ) (st st2 : GState)
    (h : doIncrementalClusteringParallel cfg r fci st = .ok st2)
    (hok : membersWithinThreshold cfg st.clusters) :
    membersWithinThreshold cfg st2.clusters := by
  unfold doIncrementalClusteringParallel at h
  split at h
  · exact Except.noConfusion h
  · injection h with h2
    subst h2
    unfold scanPhaseG
    exact foldl_scanStepG_within cfg hsym fci _ _ (seedPhaseG_within cfg r st hok)

theorem passLoopGAux_within (cfg : RunCfg) (hsym : ∀ a b, cfg.d a b = cfg.d b a)
    (N : ℕ) :
    ∀ (fuel fci inc : ℕ) (st st' : GState),
      passLoopGAux cfg N fuel fci inc st = .ok st' →
      membersWithinThreshold cfg st.clusters →
      membersWithinThreshold cfg st'.clusters := by
  intro fuel
  induction fuel with
  | zero =>
    intro fci inc st st' h hok
    injection h with h2
    subst h2
    exact hok
  | succ fuel ih =>
    intro fci inc st st' h hok
    rw [passLoopGAux] at h
    by_cases hc : st.firstUnalloc < N
    · rw [if_pos hc] at h
      rcases hp : doIncrementalClusteringParallel cfg inc fci st with e | st2 <;>
        rw [hp] at h
      · exact Except.noConfusion
          (show (Except.error e : Except String GState) = Except.ok st' from h)
      · have hok2 := passG_within cfg hsym inc fci st st2 hp hok
        have h2 : (if st2.firstUnalloc = st.firstUnalloc then Except.ok st2
            else passLoopGAux cfg N fuel st2.clusters.length cfg.clusterIncrement st2) =
            Except.ok st' := h
        by_cases he : st2.firstUnalloc = st.firstUnalloc
        · rw [if_pos he] at h2
          injection h2 with h3
          subst h3
          exact hok2
        · rw [if_neg he] at h2
          exact ih st2.clusters.length cfg.clusterIncrement st2 st' h2 hok2
    · rw [if_neg hc] at h
      injection h with h2
      subst h2
      exact hok

theorem scanStepB_within (cfg : RunCfg) (hsym : ∀ a b, cfg.d a b = cfg.d b a)
    (fci t : ℕ) (st : BState) (i : ℕ)
    (hok : membersWithinThreshold cfg st.clusters) :
    membersWithinThreshold cfg (scanStepB cfg fci t st i).clusters := by
  rcases h : findAttractor cfg.d cfg.T st.clusters (st.kmers.getD i default).enc fci
    with _ | ⟨j, dj⟩
  · simp only [scanStepB, h]
    exact hok
  · have hwin : membersWithinThreshold cfg
        (addMember st.clusters j { st.kmers.getD i default with dist := dj }) := by
      refine addMember_within cfg st.clusters j _ hok ?_
      obtain ⟨_, _, hd, hT, _⟩ := findAttractorAux_some cfg.d cfg.T st.clusters
        (st.kmers.getD i default).enc (st.clusters.length - fci) fci j dj h
      show (cfg.d ((st.clusters.getD j ⟨0, []⟩).protoEnc)
        (st.kmers.getD i default).enc : ℚ) ≤ cfg.T
      rw [hsym, ← hd]
      exact hT
    simp only [scanStepB, h]
    split
    · exact hwin
    · exact hwin

theorem foldl_scanStepB_within (cfg : RunCfg) (hsym : ∀ a b, cfg.d a b = cfg.d b a)
    (fci t : ℕ) :
    ∀ (l : List ℕ) (st : BState), membersWithinThreshold cfg st.clusters →
      membersWithinThreshold cfg ((l.foldl (scanStepB cfg fci t) st).clusters) := by
  intro l
  induction l with
  | nil => intro st hok; exact hok
  | cons i l ih =>
    intro st hok
    simp only [List.foldl_cons]
    exact ih _ (scanStepB_within cfg hsym fci t st i hok)

theorem foldl_threadB_within (cfg : RunCfg) (hsym : ∀ a b, cfg.d a b = cfg.d b a)
    (numThreads fci : ℕ) :
    ∀ (ts : List ℕ) (st : BState), membersWithinThreshold cfg st.clusters →
      membersWithinThreshold cfg
        ((ts.foldl (fun st t =>
          (List.range' (st.firstUnalloc.getD t 0)
            ((t + 1) * st.kmers.length / numThreads - st.firstUnalloc.getD t 0)).foldl
            (scanStepB cfg fci t) st) st).clusters) := by
  intro ts
  induction ts with
  | nil => intro st hok; exact hok
  | cons t ts ih =>
    intro st hok
    simp only [List.foldl_cons]
    exact ih _ (foldl_scanStepB_within cfg hsym fci t _ st hok)

theorem seedPhaseB_within (cfg : RunCfg) (numThreads r : ℕ) :
    ∀ (l : List ℕ) (st : BState), membersWithinThreshold cfg st.clusters →
      membersWithinThreshold cfg
        ((l.foldl (fun st t =>
          let wanted := min ((t + 1) * r / numThreads - t * r / numThreads)
            ((t + 1) * st.kmers.length / numThreads - st.firstUnalloc.getD t 0)
          let newClusters := (List.range wanted).map
            (fun i => { protoEnc := cfg.createProto (st.kmers.getD (st.firstUnalloc.getD t 0 + i) default), members := [] })
          { st with clusters := st.clusters ++ newClusters }) st).clusters) := by
  intro l
  induction l with
  | nil => intro st hok; exact hok
  | cons t l ih =>
    intro st hok
    simp only [List.foldl_cons]
    refine ih _ ?_
    intro c hc m hm
    rcases List.mem_append.1 hc with hc2 | hc2
    · exact hok c hc2 m hm
    · obtain ⟨i0, _, rfl⟩ := List.mem_map.1 hc2
      exact absurd hm (List.not_mem_nil m)

theorem passB_within (cfg : RunCfg) (hsym : ∀ a b, cfg.d a b = cfg.d b a)
    (numThreads r fci : ℕ) (st st2 : BState)
    (h : doIncrementalClusteringParallelBanded cfg numThreads r fci st = .ok st2)
    (hok : membersWithinThreshold cfg st.clusters) :
    membersWithinThreshold cfg st2.clusters := by
  unfold doIncrementalClusteringParallelBanded at h
  split at h
  · exact Except.noConfusion h
  · injection h with h2
    subst h2
    have hseed : membersWithinThreshold cfg
        (seedPhaseB cfg numThreads r st).clusters := by
      unfold seedPhaseB
      split
      · exact hok
      · exact seedPhaseB_within cfg numThreads r (List.range numThreads) st hok
    exact foldl_threadB_within cfg hsym numThreads fci (List.range numThreads) _ hseed

theorem passLoopBAux_within (cfg : RunCfg) (hsym : ∀ a b, cfg.d a b = cfg.d b a)
    (numThreads N : ℕ) :
    ∀ (fuel fci inc : ℕ) (st st' : BState),
      passLoopBAux cfg numThreads N fuel fci inc st = .ok st' →
      membersWithinThreshold cfg st.clusters →
      membersWithinThreshold cfg st'.clusters := by
  intro fuel
  induction fuel with
  | zero =>
    intro fci inc st st' h hok
    injection h with h2
    subst h2
    exact hok
  | succ fuel ih =>
    intro fci inc st st' h hok
    rw [passLoopBAux] at h
    by_cases hc : getUnallocated numThreads N st.firstUnalloc < N
    · rw [if_pos hc] at h
      rcases hp : doIncrementalClusteringParallelBanded cfg numThreads inc fci st
        with e | st2 <;> rw [hp] at h
      · exact Except.noConfusion
          (show (Except.error e : Except String BState) = Except.ok st' from h)
      · have hok2 := passB_within cfg hsym numThreads inc fci st st2 hp hok
        have h2 : (if getUnallocated numThreads N st2.firstUnalloc =
              getUnallocated numThreads N st.firstUnalloc then Except.ok st2
            else passLoopBAux cfg numThreads N fuel st2.clusters.length
              cfg.clusterIncrement st2) = Except.ok st' := h
        by_cases he : getUnallocated numThreads N st2.firstUnalloc =
            getUnallocated numThreads N st.firstUnalloc
        · rw [if_pos he] at h2
          injection h2 with h3
          subst h3
          exact hok2
        · rw [if_neg he] at h2
          exact ih st2.clusters.length cfg.clusterIncrement st2 st' h2 hok2
    · rw [if_neg hc] at h
      injection h with h2
      subst h2
      exact hok

/-- **C1.** After any run of `DoExhaustiveIncrementalClustering` (either
scheduling variant) starting from an empty cluster list, every member of every
resulting cluster is within the run's threshold of its cluster's prototype
encoding, measured by the run's own distance function (which both variants
apply as `dist(member, prototype)`; the symmetry hypothesis equates this with
the claim's `dist(prototype, member)` orientation). -/
theorem c1_membership_invariant (cfg : RunCfg)
    (hsym : ∀ a b, cfg.d a b = cfg.d b a) (allKmers : List KRec)
    (numThreads : ℕ) (stG : GState) (stB : BState) :
    (doExhaustiveIncrementalClustering cfg allKmers [] = .ok stG →
      membersWithinThreshold cfg stG.clusters) ∧
    (doExhaustiveIncrementalClusteringBanded cfg allKmers [] numThreads = .ok stB →
      membersWithinThreshold cfg stB.clusters) := by
  constructor
  · intro h
    have h2 : passLoopG cfg allKmers.length 0
        (if 0 < ([] : List GCluster).length then 0 else cfg.clusterIncrement)
        { kmers := shuffleRange cfg allKmers.length
            (setupLoopG cfg allKmers.length allKmers).2
            (setupLoopG cfg allKmers.length allKmers).1,
          firstUnalloc := (setupLoopG cfg allKmers.length allKmers).2,
          clusters := [] } = .ok stG := h
    exact passLoopGAux_within cfg hsym allKmers.length (allKmers.length + 1) 0 _ _ stG h2
      (fun c hc => absurd hc (List.not_mem_nil c))
  · intro h
    have h2 : passLoopB cfg numThreads allKmers.length 0
        (if 0 < ([] : List GCluster).length then 0 else cfg.clusterIncrement)
        { kmers := ((List.range numThreads).foldl
            (fun (acc : List KRec × List ℕ) t =>
              let beginIdx := t * allKmers.length / numThreads
              let endIdx := (t + 1) * allKmers.length / numThreads
              let sf := setupLoopB cfg endIdx beginIdx acc.1
              (shuffleRange cfg endIdx sf.2 sf.1, acc.2 ++ [sf.2]))
            (allKmers, [])).1,
          firstUnalloc := ((List.range numThreads).foldl
            (fun (acc : List KRec × List ℕ) t =>
              let beginIdx := t * allKmers.length / numThreads
              let endIdx := (t + 1) * allKmers.length / numThreads
              let sf := setupLoopB cfg endIdx beginIdx acc.1
              (shuffleRange cfg endIdx sf.2 sf.1, acc.2 ++ [sf.2]))
            (allKmers, [])).2,
          clusters := [] } = .ok stB := h
    exact passLoopBAux_within cfg hsym numThreads allKmers.length
      (allKmers.length + 1) 0 _ _ stB h2
      (fun c hc => absurd hc (List.not_mem_nil c))

/-- **C1 witness.** The invariant evaluated on a concrete run: two records,
distance constantly 0, threshold 0; both variants return the states computed
here and every member of every resulting cluster is within the threshold. -/
theorem c1_membership_invariant_witness :
    doExhaustiveIncrementalClustering cfgA kmersA [] =
      .ok ⟨[⟨2, 20, 0⟩, ⟨1, 10, 0⟩], 2,
        [⟨20, [⟨2, 20, 0⟩, ⟨1, 10, 0⟩]⟩]⟩ ∧
    membersWithinThreshold cfgA [⟨20, [⟨2, 20, 0⟩, ⟨1, 10, 0⟩]⟩] ∧
    doExhaustiveIncrementalClusteringBanded cfgA kmersA [] 1 =
      .ok ⟨[⟨1, 10, 0⟩, ⟨2, 20, 0⟩], [1],
        [⟨20, [⟨2, 20, 0⟩, ⟨1, 10, 0⟩]⟩, ⟨20, [⟨2, 20, 0⟩]⟩]⟩ ∧
    membersWithinThreshold cfgA
      [⟨20, [⟨2, 20, 0⟩, ⟨1, 10, 0⟩]⟩, ⟨20, [⟨2, 20, 0⟩]⟩] := by
  have h := c1_membership_invariant cfgA (fun _ _ => rfl) kmersA 1
    ⟨[⟨2, 20, 0⟩, ⟨1, 10, 0⟩], 2, [⟨20, [⟨2, 20, 0⟩, ⟨1, 10, 0⟩]⟩]⟩
    ⟨[⟨1, 10, 0⟩, ⟨2, 20, 0⟩], [1],
      [⟨20, [⟨2, 20, 0⟩, ⟨1, 10, 0⟩]⟩, ⟨20, [⟨2, 20, 0⟩]⟩]⟩
  exact ⟨by rfl, h.1 (by rfl), by rfl, h.2 (by rfl)⟩

/-! ## First-fit characterisation of the scan phases (claim C3) -/

theorem getD_set_ne_any {α : Type _} (l : List α) (a : ℕ) (v : α) (i : ℕ) (d : α)
    (h : a ≠ i) : (l.set a v).getD i d = l.getD i d := by
  simp only [List.getD_eq_getElem?_getD, List.getElem?_set_ne h]

theorem addMember_protoEnc (cs : List GCluster) (j : ℕ) (m : KRec) (u : ℕ) :
    ((addMember cs j m).getD u ⟨0, []⟩).protoEnc = ((cs.getD u ⟨0, []⟩).protoEnc) := by
  unfold addMember
  by_cases hj : j = u
  · subst hj
    by_cases hlen : j < cs.length
    · simp only [List.getD_eq_getElem?_getD, List.getElem?_set_self hlen,
        Option.getD_some]
    · rw [List.set_eq_of_length_le (by omega)]
  · rw [getD_set_ne_any _ _ _ _ _ hj]

theorem addMember_members_getD (cs : List GCluster) (j : ℕ) (m : KRec)
    (hj : j < cs.length) (u : ℕ) :
    ((addMember cs j m).getD u ⟨0, []⟩).members =
      (cs.getD u ⟨0, []⟩).members ++ (if u = j then [m] else []) := by
  unfold addMember
  by_cases hu : u = j
  · subst hu
    rw [if_pos rfl]
    simp only [List.getD_eq_getElem?_getD, List.getElem?_set_self hj, Option.getD_some]
  · rw [if_neg hu, getD_set_ne_any _ _ _ _ _ (fun hh => hu hh.symm), List.append_nil]

theorem findAttractorAux_congr (d : ℕ → ℕ → ℕ) (T : ℚ) (cs1 cs2 : List GCluster)
    (enc : ℕ)
    (hp : ∀ u, ((cs1.getD u ⟨0, []⟩).protoEnc) = ((cs2.getD u ⟨0, []⟩).protoEnc)) :
    ∀ n j, findAttractorAux d T cs1 enc n j = findAttractorAux d T cs2 enc n j := by
  intro n
  induction n with
  | zero => intro j; rfl
  | succ n ih =>
    intro j
    simp only [findAttractorAux, hp j, ih (j + 1)]

theorem findAttractor_congr (d : ℕ → ℕ → ℕ) (T : ℚ) (cs1 cs2 : List GCluster)
    (enc fci : ℕ) (hlen : cs1.length = cs2.length)
    (hp : ∀ u, ((cs1.getD u ⟨0, []⟩).protoEnc) = ((cs2.getD u ⟨0, []⟩).protoEnc)) :
    findAttractor d T cs1 enc fci = findAttractor d T cs2 enc fci := by
  unfold findAttractor
  rw [hlen, findAttractorAux_congr d T cs1 cs2 enc hp]

/-- One global scan step at position `i` (with the high-water mark at most
`i`, as along the phase): positions above `i` are untouched, the cluster count
and all prototypes are preserved, and on a hit exactly the scanned record —
with its `distanceFromPrototype` set to the winning distance — is appended to
the winning cluster, the mark advancing by one; on a miss nothing changes. -/
theorem scanStepG_char (cfg : RunCfg) (fci : ℕ) (st : GState) (i : ℕ)
    (hf : st.firstUnalloc ≤ i) :
    (∀ i', i < i' →
      (scanStepG cfg fci st i).kmers.getD i' default = st.kmers.getD i' default) ∧
    (scanStepG cfg fci st i).clusters.length = st.clusters.length ∧
    (∀ u, (((scanStepG cfg fci st i).clusters.getD u ⟨0, []⟩).protoEnc) =
      ((st.clusters.getD u ⟨0, []⟩).protoEnc)) ∧
    (match findAttractor cfg.d cfg.T st.clusters (st.kmers.getD i default).enc fci with
     | none => (scanStepG cfg fci st i).firstUnalloc = st.firstUnalloc ∧
         ∀ u, ((scanStepG cfg fci st i).clusters.getD u ⟨0, []⟩).members =
           (st.clusters.getD u ⟨0, []⟩).members
     | some (j, dj) => (scanStepG cfg fci st i).firstUnalloc = st.firstUnalloc + 1 ∧
         ∀ u, ((scanStepG cfg fci st i).clusters.getD u ⟨0, []⟩).members =
           (st.clusters.getD u ⟨0, []⟩).members ++
             (if u = j then [{ st.kmers.getD i default with dist := dj }] else [])) := by
  rcases h : findAttractor cfg.d cfg.T st.clusters (st.kmers.getD i default).enc fci
    with _ | ⟨j, dj⟩
  · simp only [scanStepG, h]
    exact ⟨fun _ _ => trivial, trivial, fun _ => trivial, trivial, fun _ => trivial⟩
  · have hj : j < st.clusters.length := by
      obtain ⟨h1, h2, _, _, _⟩ := findAttractorAux_some cfg.d cfg.T st.clusters
        (st.kmers.getD i default).enc (st.clusters.length - fci) fci j dj h
      omega
    simp only [scanStepG, h]
    refine ⟨?_, addMember_length _ _ _, addMember_protoEnc _ _ _, trivial,
      addMember_members_getD _ _ _ hj⟩
    intro i' hi'
    by_cases hlt : st.firstUnalloc < i
    · rw [if_pos hlt]
      unfold listSwap
      rw [getD_set_ne_any _ _ _ _ _ (by omega), getD_set_ne_any _ _ _ _ _ (by omega),
        getD_set_ne_any _ _ _ _ _ (by omega)]
    · rw [if_neg hlt]
      rw [getD_set_ne_any _ _ _ _ _ (by omega)]

theorem specHitsG_succ (cfg : RunCfg) (fci : ℕ) (orig : List KRec)
    (cs0 : List GCluster) (i0 n : ℕ) :
    specHitsG cfg fci orig cs0 i0 (n + 1) =
      (if (findAttractor cfg.d cfg.T cs0 (orig.getD i0 default).enc fci).isSome
        then 1 else 0) + specHitsG cfg fci orig cs0 (i0 + 1) n := by
  unfold specHitsG
  rw [List.range'_succ, List.filter_cons]
  by_cases hc : (findAttractor cfg.d cfg.T cs0 (orig.getD i0 default).enc fci).isSome
  · rw [if_pos hc, if_pos hc, List.length_cons]
    omega
  · rw [if_neg hc, if_neg hc]
    omega

theorem specAssignedG_succ (cfg : RunCfg) (fci : ℕ) (orig : List KRec)
    (cs0 : List GCluster) (i0 n u : ℕ) :
    specAssignedG cfg fci orig cs0 i0 (n + 1) u =
      (match findAttractor cfg.d cfg.T cs0 (orig.getD i0 default).enc fci with
       | some (j, dj) =>
         if u = j then [{ orig.getD i0 default with dist := dj }] else []
       | none => []) ++ specAssignedG cfg fci orig cs0 (i0 + 1) n u := by
  unfold specAssignedG
  rw [List.range'_succ, List.filterMap_cons]
  rcases ha : findAttractor cfg.d cfg.T cs0 (orig.getD i0 default).enc fci
    with _ | ⟨j, dj⟩
  · simp only [ha, List.nil_append]
  · simp only [ha]
    by_cases hju : j = u
    · subst hju
      simp
    · simp [hju, Ne.symm hju]

/-- The global scan over consecutive positions `[i0, i0 + n)`, started in a
state whose unscanned positions hold the records of `orig` and whose clusters
carry the prototypes of `cs0`: the mark advances by exactly the number of
first-fit hits, and every cluster's member list is extended by exactly the
records first-fit assigns to it, in scan order, each carrying the winning
distance. -/
theorem scanG_run (cfg : RunCfg) (fci : ℕ) (orig : List KRec) (cs0 : List GCluster) :
    ∀ (n i0 : ℕ) (st : GState),
      st.firstUnalloc ≤ i0 →
      (∀ i', i0 ≤ i' → st.kmers.getD i' default = orig.getD i' default) →
      st.clusters.length = cs0.length →
      (∀ u, ((st.clusters.getD u ⟨0, []⟩).protoEnc) = ((cs0.getD u ⟨0, []⟩).protoEnc)) →
      ((List.range' i0 n).foldl (scanStepG cfg fci) st).firstUnalloc =
        st.firstUnalloc + specHitsG cfg fci orig cs0 i0 n ∧
      ∀ u, (((List.range' i0 n).foldl (scanStepG cfg fci) st).clusters.getD u
          ⟨0, []⟩).members =
        (st.clusters.getD u ⟨0, []⟩).members ++ specAssignedG cfg fci orig cs0 i0 n u := by
  intro n
  induction n with
  | zero =>
    intro i0 st _ _ _ _
    constructor
    · show st.firstUnalloc = st.firstUnalloc + specHitsG cfg fci orig cs0 i0 0
      have : specHitsG cfg fci orig cs0 i0 0 = 0 := rfl
      omega
    · intro u
      exact (List.append_nil ((st.clusters.getD u ⟨0, []⟩).members)).symm
  | succ n ih =>
    intro i0 st hf hk hlen hp
    rw [List.range'_succ]
    simp only [List.foldl_cons]
    have hchar := scanStepG_char cfg fci st i0 hf
    have hoi : st.kmers.getD i0 default = orig.getD i0 default := hk i0 (le_refl _)
    have htr : findAttractor cfg.d cfg.T st.clusters (st.kmers.getD i0 default).enc fci =
        findAttractor cfg.d cfg.T cs0 (orig.getD i0 default).enc fci := by
      rw [hoi]
      exact findAttractor_congr cfg.d cfg.T st.clusters cs0 _ fci hlen hp
    obtain ⟨hkm, hcl, hpp, hrest⟩ := hchar
    rcases ha : findAttractor cfg.d cfg.T cs0 (orig.getD i0 default).enc fci
      with _ | ⟨j, dj⟩
    · rw [htr, ha] at hrest
      obtain ⟨hfu, hmem⟩ := hrest
      have hIH := ih (i0 + 1) (scanStepG cfg fci st i0) (by omega)
        (fun i' hi' => (hkm i' (by omega)).trans (hk i' (by omega)))
        (hcl.trans hlen) (fun u => (hpp u).trans (hp u))
      constructor
      · rw [hIH.1, hfu, specHitsG_succ, ha]
        simp only [Option.isSome_none, Bool.false_eq_true, if_false]
        omega
      · intro u
        rw [hIH.2 u, hmem u, specAssignedG_succ, ha]
        rfl
    · rw [htr, ha] at hrest
      obtain ⟨hfu, hmem⟩ := hrest
      have hIH := ih (i0 + 1) (scanStepG cfg fci st i0) (by omega)
        (fun i' hi' => (hkm i' (by omega)).trans (hk i' (by omega)))
        (hcl.trans hlen) (fun u => (hpp u).trans (hp u))
      constructor
      · rw [hIH.1, hfu, specHitsG_succ, ha]
        simp only [Option.isSome_some, if_true]
        omega
      · intro u
        rw [hIH.2 u, hmem u, specAssignedG_succ, ha, hoi, List.append_assoc]

/-- The global scan phase, characterised against the state it starts from. -/
theorem scanPhaseG_firstFit (cfg : RunCfg) (fci : ℕ) (st : GState) :
    (scanPhaseG cfg fci st).firstUnalloc =
      st.firstUnalloc + specHitsG cfg fci st.kmers st.clusters st.firstUnalloc
        (st.kmers.length - st.firstUnalloc) ∧
    ∀ u, ((scanPhaseG cfg fci st).clusters.getD u ⟨0, []⟩).members =
      (st.clusters.getD u ⟨0, []⟩).members ++
        specAssignedG cfg fci st.kmers st.clusters st.firstUnalloc
          (st.kmers.length - st.firstUnalloc) u :=
  scanG_run cfg fci st.kmers st.clusters (st.kmers.length - st.firstUnalloc)
    st.firstUnalloc st (le_refl _) (fun _ _ => rfl) rfl (fun _ => rfl)

theorem getD_set_self_le (l : List ℕ) (t v : ℕ) (h : l.getD t 0 ≤ v) :
    (l.set t v).getD t 0 ≤ v := by
  by_cases hl : t < l.length
  · simp only [List.getD_eq_getElem?_getD, List.getElem?_set_self hl, Option.getD_some]
    exact le_refl v
  · rw [List.set_eq_of_length_le (Nat.le_of_not_lt hl)]
    exact h

/-- One banded scan step for thread `t` at position `i` (mark at most `i`):
positions above `i` are untouched, cluster count and prototypes preserved,
other threads' marks untouched, thread `t`'s mark stays at most `i + 1`, and
on a hit exactly the scanned record (withits winning distance) is appended to
the winning cluster. -/
theorem scanStepB_char (cfg : RunCfg) (fci t : ℕ) (st : BState) (i : ℕ)
    (hf : st.firstUnalloc.getD t 0 ≤ i) :
    (∀ i', i < i' →
      (scanStepB cfg fci t st i).kmers.getD i' default = st.kmers.getD i' default) ∧
    (scanStepB cfg fci t st i).clusters.length = st.clusters.length ∧
    (∀ u, (((scanStepB cfg fci t st i).clusters.getD u ⟨0, []⟩).protoEnc) =
      ((st.clusters.getD u ⟨0, []⟩).protoEnc)) ∧
    (∀ t', t' ≠ t →
      (scanStepB cfg fci t st i).firstUnalloc.getD t' 0 =
        st.firstUnalloc.getD t' 0) ∧
    (scanStepB cfg fci t st i).firstUnalloc.getD t 0 ≤ i + 1 ∧
    (match findAttractor cfg.d cfg.T st.clusters (st.kmers.getD i default).enc fci with
     | none => ∀ u, ((scanStepB cfg fci t st i).clusters.getD u ⟨0, []⟩).members =
         (st.clusters.getD u ⟨0, []⟩).members
     | some (j, dj) =>
         ∀ u, ((scanStepB cfg fci t st i).clusters.getD u ⟨0, []⟩).members =
           (st.clusters.getD u ⟨0, []⟩).members ++
             (if u = j then [{ st.kmers.getD i default with dist := dj }] else [])) := by
  rcases h : findAttractor cfg.d cfg.T st.clusters (st.kmers.getD i default).enc fci
    with _ | ⟨j, dj⟩
  · simp only [scanStepB, h]
    exact ⟨fun _ _ => trivial, trivial, fun _ => trivial, fun _ _ => trivial,
      by omega, fun _ => trivial⟩
  · have hj : j < st.clusters.length := by
      obtain ⟨h1, h2, _, _, _⟩ := findAttractorAux_some cfg.d cfg.T st.clusters
        (st.kmers.getD i default).enc (st.clusters.length - fci) fci j dj h
      omega
    by_cases hlt : st.firstUnalloc.getD t 0 < i
    · simp only [scanStepB, h, if_pos hlt]
      refine ⟨?_, addMember_length _ _ _, addMember_protoEnc _ _ _, ?_, ?_,
        addMember_members_getD _ _ _ hj⟩
      · intro i' hi'
        unfold listSwap
        rw [getD_set_ne_any _ _ _ _ _ (by omega), getD_set_ne_any _ _ _ _ _ (by omega),
          getD_set_ne_any _ _ _ _ _ (by omega)]
      · intro t' ht'
        exact getD_set_ne_any _ _ _ _ _ (fun hh => ht' hh.symm)
      · have hb := getD_set_self_le st.firstUnalloc t (st.firstUnalloc.getD t 0 + 1)
          (by omega)
        omega
    · simp only [scanStepB, h, if_neg hlt]
      refine ⟨?_, addMember_length _ _ _, addMember_protoEnc _ _ _,
        fun _ _ => trivial, by omega, addMember_members_getD _ _ _ hj⟩
      intro i' hi'
      rw [getD_set_ne_any _ _ _ _ _ (by omega)]

/-- The banded scan of thread `t` over its window `[i0, i0 + n)`: positions
beyond the window are untouched, cluster count and prototypes preserved, other
threads' marks untouched, and each cluster's member list is extended by
exactly the records the first-fit search assigns to it from the window. -/
theorem scanB_run (cfg : RunCfg) (fci t : ℕ) (orig : List KRec) (cs0 : List GCluster) :
    ∀ (n i0 : ℕ) (st : BState),
      st.firstUnalloc.getD t 0 ≤ i0 →
      (∀ i', i0 ≤ i' → st.kmers.getD i' default = orig.getD i' default) →
      st.clusters.length = cs0.length →
      (∀ u, ((st.clusters.getD u ⟨0, []⟩).protoEnc) = ((cs0.getD u ⟨0, []⟩).protoEnc)) →
      (∀ i', i0 + n ≤ i' →
        ((List.range' i0 n).foldl (scanStepB cfg fci t) st).kmers.getD i' default =
          st.kmers.getD i' default) ∧
      ((List.range' i0 n).foldl (scanStepB cfg fci t) st).clusters.length =
        cs0.length ∧
      (∀ u, ((((List.range' i0 n).foldl (scanStepB cfg fci t) st).clusters.getD u
        ⟨0, []⟩).protoEnc) = ((cs0.getD u ⟨0, []⟩).protoEnc)) ∧
      (∀ t', t' ≠ t →
        ((List.range' i0 n).foldl (scanStepB cfg fci t) st).firstUnalloc.getD t' 0 =
          st.firstUnalloc.getD t' 0) ∧
      (∀ u, ((((List.range' i0 n).foldl (scanStepB cfg fci t) st).clusters.getD u
          ⟨0, []⟩).members) =
        (st.clusters.getD u ⟨0, []⟩).members ++ specAssignedG cfg fci orig cs0 i0 n u) := by
  intro n
  induction n with
  | zero =>
    intro i0 st _ _ hlen hp
    exact ⟨fun _ _ => rfl, hlen, hp, fun _ _ => rfl,
      fun u => (List.append_nil _).symm⟩
  | succ n ih =>
    intro i0 st hf hk hlen hp
    rw [List.range'_succ]
    simp only [List.foldl_cons]
    obtain ⟨hkm, hcl, hpp, hfu', hft, hrest⟩ := scanStepB_char cfg fci t st i0 hf
    have hoi := hk i0 (le_refl _)
    have htr : findAttractor cfg.d cfg.T st.clusters (st.kmers.getD i0 default).enc
        fci = findAttractor cfg.d cfg.T cs0 (orig.getD i0 default).enc fci := by
      rw [hoi]
      exact findAttractor_congr cfg.d cfg.T st.clusters cs0 _ fci hlen hp
    have hIH := ih (i0 + 1) (scanStepB cfg fci t st i0) hft
      (fun i' hi' => (hkm i' (by omega)).trans (hk i' (by omega)))
      (hcl.trans hlen) (fun u => (hpp u).trans (hp u))
    rcases ha : findAttractor cfg.d cfg.T cs0 (orig.getD i0 default).enc fci
      with _ | ⟨j, dj⟩
    · rw [htr, ha] at hrest
      refine ⟨?_, hIH.2.1, hIH.2.2.1, ?_, ?_⟩
      · intro i' hi'
        exact (hIH.1 i' (by omega)).trans (hkm i' (by omega))
      · intro t' ht'
        exact (hIH.2.2.2.1 t' ht').trans (hfu' t' ht')
      · intro u
        rw [hIH.2.2.2.2 u, hrest u, specAssignedG_succ, ha]
        rfl
    · rw [htr, ha] at hrest
      refine ⟨?_, hIH.2.1, hIH.2.2.1, ?_, ?_⟩
      · intro i' hi'
        exact (hIH.1 i' (by omega)).trans (hkm i' (by omega))
      · intro t' ht'
        exact (hIH.2.2.2.1 t' ht').trans (hfu' t' ht')
      · intro u
        rw [hIH.2.2.2.2 u, hrest u, specAssignedG_succ, ha, hoi, List.append_assoc]

/-- The banded scan phase over threads `t0, …, t0 + m - 1` (bands of the
remaining threads undisturbed so far): each cluster's member list is extended
by the per-band first-fit assignments, band after band. -/
theorem scanB_threads (cfg : RunCfg) (numThreads fci : ℕ) (orig : List KRec)
    (cs0 : List GCluster) (init : List ℕ) :
    ∀ (m t0 : ℕ) (st : BState),
      st.kmers.length = orig.length →
      (∀ i', t0 * orig.length / numThreads ≤ i' →
        st.kmers.getD i' default = orig.getD i' default) →
      (∀ t', t0 ≤ t' → st.firstUnalloc.getD t' 0 = init.getD t' 0) →
      (∀ t', t0 ≤ t' → t' < t0 + m →
        t' * orig.length / numThreads ≤ init.getD t' 0) →
      st.clusters.length = cs0.length →
      (∀ u, ((st.clusters.getD u ⟨0, []⟩).protoEnc) = ((cs0.getD u ⟨0, []⟩).protoEnc)) →
      ∀ u, ((((List.range' t0 m).foldl (fun st t =>
          (List.range' (st.firstUnalloc.getD t 0)
            ((t + 1) * st.kmers.length / numThreads - st.firstUnalloc.getD t 0)).foldl
            (scanStepB cfg fci t) st) st).clusters.getD u ⟨0, []⟩).members) =
        (st.clusters.getD u ⟨0, []⟩).members ++
          specAssignedB cfg numThreads fci orig cs0 init t0 m u := by
  intro m
  induction m with
  | zero =>
    intro t0 st _ _ _ _ _ _ u
    exact (List.append_nil _).symm
  | succ m ih =>
    intro t0 st hlen hk hfu hband hclen hp u
    rw [List.range'_succ]
    simp only [List.foldl_cons]
    rw [hfu t0 (le_refl _), hlen]
    have hdivmono : t0 * orig.length / numThreads ≤
        (t0 + 1) * orig.length / numThreads :=
      Nat.div_le_div_right (Nat.mul_le_mul_right _ (by omega))
    rcases le_or_lt (init.getD t0 0) ((t0 + 1) * orig.length / numThreads)
      with hle | hgt
    · have hscan := scanB_run cfg fci t0 orig cs0
        ((t0 + 1) * orig.length / numThreads - init.getD t0 0) (init.getD t0 0) st
        (le_of_eq (hfu t0 (le_refl _)))
        (fun i' hi' => hk i' (le_trans (hband t0 (le_refl _) (by omega)) hi'))
        hclen hp
      have hIH := ih (t0 + 1)
        ((List.range' (init.getD t0 0)
          ((t0 + 1) * orig.length / numThreads - init.getD t0 0)).foldl
          (scanStepB cfg fci t0) st)
        ((foldl_scanStepB_mono cfg fci t0 _ st).2.trans hlen)
        (fun i' hi' => by
          rw [hscan.1 i' (by omega)]
          exact hk i' (le_trans hdivmono hi'))
        (fun t' ht' => (hscan.2.2.2.1 t' (by omega)).trans (hfu t' (by omega)))
        (fun t' ht1 ht2 => hband t' (by omega) (by omega))
        hscan.2.1 hscan.2.2.1
      rw [hIH u, hscan.2.2.2.2 u, specAssignedB, List.append_assoc]
    · have hn0 : (t0 + 1) * orig.length / numThreads - init.getD t0 0 = 0 := by
        omega
      rw [hn0]
      have hIH := ih (t0 + 1) st hlen
        (fun i' hi' => hk i' (le_trans hdivmono hi'))
        (fun t' ht' => hfu t' (by omega))
        (fun t' ht1 ht2 => hband t' (by omega) (by omega))
        hclen hp
      rw [List.range'_zero, List.foldl_nil, hIH u, specAssignedB, hn0]
      rfl

/-- The banded scan phase, characterised against the state it starts from,
under the band discipline of the exhaustive driver (each thread's mark at or
beyond its band start). -/
theorem scanPhaseB_firstFit (cfg : RunCfg) (numThreads fci : ℕ) (st : BState)
    (hband : ∀ t', t' < numThreads →
      t' * st.kmers.length / numThreads ≤ st.firstUnalloc.getD t' 0) :
    ∀ u, ((scanPhaseB cfg numThreads fci st).clusters.getD u ⟨0, []⟩).members =
      (st.clusters.getD u ⟨0, []⟩).members ++
        specAssignedB cfg numThreads fci st.kmers st.clusters st.firstUnalloc
          0 numThreads u := by
  intro u
  have h := scanB_threads cfg numThreads fci st.kmers st.clusters st.firstUnalloc
    numThreads 0 st rfl (fun _ _ => rfl) (fun _ _ => rfl)
    (fun t' _ ht' => hband t' (by omega)) rfl (fun _ => rfl) u
  show ((((List.range numThreads).foldl (fun st t =>
      (List.range' (st.firstUnalloc.getD t 0)
        ((t + 1) * st.kmers.length / numThreads - st.firstUnalloc.getD t 0)).foldl
        (scanStepB cfg fci t) st) st).clusters.getD u ⟨0, []⟩).members) = _
  rw [List.range_eq_range']
  exact h

/-- **C3.** First-fit, not nearest-fit.  (1) A hit of the prototype scan
returns the least index `j` in `[firstClusterIndex, clusters.size)` whose
prototype is within the threshold, along with exactly the distance to that
prototype; (2) a miss means no cluster of the window is within the threshold,
and the k-mer stays unassigned; (3) one global scan phase advances the mark by
exactly the number of first-fit hits and appends to each cluster exactly the
records first-fit assigns to it, in scan order, each record's
`distanceFromPrototype` set to the winning distance; (4) likewise the banded
scan phase, band by band, under the exhaustive driver's band discipline. -/
theorem c3_first_fit_scan :
    (∀ (d : ℕ → ℕ → ℕ) (T : ℚ) (cs : List GCluster) (enc fci j dj : ℕ),
      findAttractor d T cs enc fci = some (j, dj) →
      fci ≤ j ∧ j < cs.length ∧
      dj = d enc ((cs.getD j ⟨0, []⟩).protoEnc) ∧ (dj : ℚ) ≤ T ∧
      ∀ u, fci ≤ u → u < j → ¬ ((d enc ((cs.getD u ⟨0, []⟩).protoEnc) : ℚ) ≤ T)) ∧
    (∀ (d : ℕ → ℕ → ℕ) (T : ℚ) (cs : List GCluster) (enc fci : ℕ),
      findAttractor d T cs enc fci = none →
      ∀ u, fci ≤ u → u < cs.length →
        ¬ ((d enc ((cs.getD u ⟨0, []⟩).protoEnc) : ℚ) ≤ T)) ∧
    (∀ (cfg : RunCfg) (fci : ℕ) (st : GState),
      (scanPhaseG cfg fci st).firstUnalloc =
        st.firstUnalloc + specHitsG cfg fci st.kmers st.clusters st.firstUnalloc
          (st.kmers.length - st.firstUnalloc) ∧
      ∀ u, ((scanPhaseG cfg fci st).clusters.getD u ⟨0, []⟩).members =
        (st.clusters.getD u ⟨0, []⟩).members ++
          specAssignedG cfg fci st.kmers st.clusters st.firstUnalloc
            (st.kmers.length - st.firstUnalloc) u) ∧
    (∀ (cfg : RunCfg) (numThreads fci : ℕ) (st : BState),
      (∀ t', t' < numThreads →
        t' * st.kmers.length / numThreads ≤ st.firstUnalloc.getD t' 0) →
      ∀ u, ((scanPhaseB cfg numThreads fci st).clusters.getD u ⟨0, []⟩).members =
        (st.clusters.getD u ⟨0, []⟩).members ++
          specAssignedB cfg numThreads fci st.kmers st.clusters st.firstUnalloc
            0 numThreads u) := by
  refine ⟨?_, ?_, ?_, ?_⟩
  · intro d T cs enc fci j dj h
    obtain ⟨h1, h2, h3, h4, h5⟩ := findAttractorAux_some d T cs enc
      (cs.length - fci) fci j dj h
    exact ⟨h1, by omega, h3, h4, h5⟩
  · intro d T cs enc fci h u hu1 hu2
    exact findAttractorAux_none d T cs enc (cs.length - fci) fci h u hu1 (by omega)
  · intro cfg fci st
    exact scanPhaseG_firstFit cfg fci st
  · intro cfg numThreads fci st hband
    exact scanPhaseB_firstFit cfg numThreads fci st hband

end ADCS2018
